import Mathlib

/-!
# mempool-dat: the `mempool.dat` reader (`lib/reader.go`)

A shallow embedding of `ReadMempoolFromPath`, `readFileHeader`,
`readMempoolEntry` and `readLEint64`, followed by theorems about them.

Modelling conventions.

* A Go function returning `(T, error)` is a Lean function returning the pair
  of the value and an `Option GoError` (`none` is the `nil` error), so that the
  value returned next to a non-nil error stays visible.
* A `*bufio.Reader` over a file is the list of bytes not yet consumed together
  with the error the underlying file reports once those bytes are exhausted
  (`io.EOF` for a regular file read to its end).  Functions that read take the
  reader state and return the new one.
* A Go slice is `Option (List α)`: `none` is the `nil` slice, `some l` a
  non-nil slice with elements `l`.
* `int64` values are integers; the only place where the width matters is the
  conversion `int64(uint64)` in `readLEint64`.
* `wire.MsgTx.Deserialize` is outside this repository.  It is a parameter: a
  function from the reader state to its error result, the decoded transaction
  and the number of bytes it consumed.
* Memory is bounded: `make` fails for a negative length and for a length above
  `maxLen`, the largest number of `MempoolEntry` values the run time can
  allocate.  That number depends on the platform and is a parameter of
  `ReadMempoolFromPath`.
-/

namespace MempoolDat

/-- One byte of the file. -/
abbrev Byte := Fin 256

/-- The call sites of `fmt.Errorf` in `ReadMempoolFromPath`, with the
arguments formatted before the wrapped error. -/
inductive ErrSite where
  | openFile
  | header
  | entry (index : Int)
  | feeDelta
  deriving DecidableEq

/-- Go `error` values that can occur: the two `io` sentinels, errors coming
from outside the package (the operating system, the transaction decoder), and
the wrapping errors built by `fmt.Errorf("...%w", ..., err)`. -/
inductive GoError where
  | EOF
  | ErrUnexpectedEOF
  | foreign (msg : String)
  | wrapError (site : ErrSite) (cause : GoError)
  deriving DecidableEq

/-- The method `Error()`: the message of an error. -/
def GoError.Error : GoError → String
  | .EOF => "EOF"
  | .ErrUnexpectedEOF => "unexpected EOF"
  | .foreign msg => msg
  | .wrapError .openFile cause => "Could not read mempool file: " ++ cause.Error
  | .wrapError .header cause => "Could not read header: " ++ cause.Error
  | .wrapError (.entry i) cause =>
      "Could not read mempoolEntry at index " ++ toString i ++ " :" ++ cause.Error
  | .wrapError .feeDelta cause => "Could not read feeDelta: " ++ cause.Error

/-- The function `errors.Unwrap`: the error wrapped with `%w`, if any. -/
def GoError.Unwrap : GoError → Option GoError
  | .wrapError _ cause => some cause
  | _ => none

/-- A Go slice: `none` is `nil`. -/
abbrev Slice (α : Type) := Option (List α)

/-- The elements of a slice; a `nil` slice has none. -/
def Slice.elems {α : Type} : Slice α → List α
  | none => []
  | some l => l

/-- The builtin `append(s, x)`. -/
def goAppend {α : Type} : Slice α → α → Slice α
  | none, x => some [x]
  | some l, x => some (l ++ [x])

/-- The builtin `make([]T, n)` for an `int64` length: `none` is the run-time
failure of the allocation (the panic `makeslice: len out of range`, or
running out of memory), for a negative length and for a length above `maxLen`,
the largest length the run time can allocate for the element type; otherwise
the slice holds `n` zero values. -/
def makeSlice {α : Type} (maxLen : Nat) (zero : α) (n : Int) : Option (List α) :=
  if n < 0 ∨ (maxLen : Int) < n then none else some (List.replicate n.toNat zero)

/-- Type `FileHeader`, built as `FileHeader{fileVersion, numberOfTx}`; its
second field is read as `header.numTx`.  The declaration is not in
`reader.go`; the fields are those the reader uses. -/
structure FileHeader where
  version : Int
  numTx : Int
  deriving DecidableEq

/-- Type `MempoolEntry`, built as `MempoolEntry{msgTx, timestamp, feeDelta}`
from a `*wire.MsgTx` and two `int64`; `tx` is a pointer, `nil` in the zero
value.  The declaration is not in `reader.go`. -/
structure MempoolEntry (Tx : Type) where
  tx : Option Tx
  timestamp : Int
  feeDelta : Int
  deriving DecidableEq

/-- Type `Mempool`: the reader assigns a `FileHeader` to `header`, a
`[]MempoolEntry` to `entries` and a `[]byte` to `mapDeltas`.  The declaration
is not in `reader.go`. -/
structure Mempool (Tx : Type) where
  header : FileHeader
  entries : Slice (MempoolEntry Tx)
  mapDeltas : Slice Byte
  deriving DecidableEq

/-- The zero value of `FileHeader`. -/
def FileHeader.zero : FileHeader := ⟨0, 0⟩

/-- The zero value of `MempoolEntry`. -/
def MempoolEntry.zero {Tx : Type} : MempoolEntry Tx := ⟨none, 0, 0⟩

/-- The zero value of `Mempool`, the initial value of the named result `mem`. -/
def Mempool.zero {Tx : Type} : Mempool Tx := ⟨FileHeader.zero, none, none⟩

/-- An opened file: its content and the error a read reports when the content
is exhausted. -/
structure File where
  content : List Byte
  readErr : GoError
  deriving DecidableEq

/-- State of a `*bufio.Reader`: the bytes not consumed yet and the error
reported after them. -/
structure Reader where
  rest : List Byte
  err : GoError
  deriving DecidableEq

/-- The call `bufio.NewReader(file)`. -/
def NewReader (f : File) : Reader := ⟨f.content, f.readErr⟩

/-- The reader after `n` more bytes were consumed. -/
def Reader.advance (r : Reader) (n : Nat) : Reader := ⟨r.rest.drop n, r.err⟩

/-- The call `io.ReadFull(r, buf)` for a buffer of `n` bytes: the buffer
afterwards, the error, the new reader state.  With fewer than `n` bytes left
everything left is consumed and the error is the reader's, except that
`io.EOF` after at least one byte becomes `io.ErrUnexpectedEOF`. -/
def ReadFull (r : Reader) (n : Nat) : List Byte × Option GoError × Reader :=
  if n ≤ r.rest.length then
    (r.rest.take n, none, r.advance n)
  else
    (r.rest ++ List.replicate (n - r.rest.length) 0,
      some (if 0 < r.rest.length ∧ r.err = .EOF then .ErrUnexpectedEOF else r.err),
      r.advance r.rest.length)

/-- The call `binary.LittleEndian.Uint64(b)`. -/
def leUint64 (b : List Byte) : Nat :=
  (b.take 8).foldr (fun x acc => x.val + 256 * acc) 0

/-- The conversion `int64(u)` of a `uint64`. -/
def toInt64 (u : Nat) : Int :=
  if u % 2 ^ 64 < 2 ^ 63 then ((u % 2 ^ 64 : Nat) : Int) else ((u % 2 ^ 64 : Nat) : Int) - 2 ^ 64

/-- Function `readLEint64`. -/
def readLEint64 (r : Reader) : Int × Option GoError × Reader :=
  match ReadFull r 8 with
  | (_, some err, r1) => (0, some err, r1)
  | (next64Bit, none, r1) => (toInt64 (leUint64 next64Bit), none, r1)

/-- Function `readFileHeader`. -/
def readFileHeader (r : Reader) : FileHeader × Option GoError × Reader :=
  match readLEint64 r with
  | (_, some err, r1) => (FileHeader.zero, some err, r1)
  | (fileVersion, none, r1) =>
    match readLEint64 r1 with
    | (_, some err, r2) => (FileHeader.zero, some err, r2)
    | (numberOfTx, none, r2) => (⟨fileVersion, numberOfTx⟩, none, r2)

/-- The method `(*wire.MsgTx).Deserialize` applied to a fresh `wire.NewMsgTx(1)`:
from the reader state, the error, the transaction and the number of bytes
consumed. -/
abbrev TxDecoder (Tx : Type) := Reader → Option GoError × Tx × Nat

/-- Function `readMempoolEntry`. -/
def readMempoolEntry {Tx : Type} (Deserialize : TxDecoder Tx) (r : Reader) :
    MempoolEntry Tx × Option GoError × Reader :=
  match Deserialize r with
  | (some err, _, k) => (MempoolEntry.zero, some err, r.advance k)
  | (none, msgTx, k) =>
    match readLEint64 (r.advance k) with
    | (_, some err, r2) => (MempoolEntry.zero, some err, r2)
    | (timestamp, none, r2) =>
      match readLEint64 r2 with
      | (_, some err, r3) => (MempoolEntry.zero, some err, r3)
      | (feeDelta, none, r3) => (⟨some msgTx, timestamp, feeDelta⟩, none, r3)

/-- The loop `for i := int64(0); i < header.numTx; i++` of
`ReadMempoolFromPath`, entered with `k = header.numTx - i` iterations left,
the loop variable `i`, the reader, the slice `entries` and the number `calls`
of `readMempoolEntry` calls made so far (each makes exactly one `Deserialize`
call, its first statement).  The result is the error of the failing iteration
if one fails, the slice, the reader and the number of calls. -/
def readEntries {Tx : Type} (Deserialize : TxDecoder Tx) :
    Nat → Int → Reader → List (MempoolEntry Tx) → Nat →
      Option GoError × List (MempoolEntry Tx) × Reader × Nat
  | 0, _, r, entries, calls => (none, entries, r, calls)
  | k + 1, i, r, entries, calls =>
    match readMempoolEntry Deserialize r with
    | (_, some err, r1) => (some (.wrapError (.entry i) err), entries, r1, calls + 1)
    | (mementry, none, r1) =>
      readEntries Deserialize k (i + 1) r1 (entries.set i.toNat mementry) (calls + 1)

/-- The method `(*bufio.Reader).ReadByte`. -/
def ReadByte (r : Reader) : Byte × Option GoError × Reader :=
  match r.rest with
  | [] => (0, some r.err, r)
  | b :: bs => (b, none, ⟨bs, r.err⟩)

/-- The loop draining the reader with `ReadByte` into `feeDelta`, by recursion
on the bytes left (the two cases are the two results of `ReadByte`): at the
end of the bytes the reader's error ends the loop, normally for `io.EOF`. -/
def readRemaining (err : GoError) : List Byte → Slice Byte → Slice Byte × Option GoError
  | [], feeDelta => if err = .EOF then (feeDelta, none) else (feeDelta, some err)
  | b :: bs, feeDelta => readRemaining err bs (goAppend feeDelta b)

/-- How a call ends: with a run-time panic or by returning `(mem, err)`. -/
inductive Outcome (Tx : Type) where
  | runtimePanic
  | ret (mem : Mempool Tx) (err : Option GoError)
  deriving DecidableEq

/-- What a run of the body of `ReadMempoolFromPath` leaves behind: its outcome,
the state of the buffered reader and the number of `Deserialize` calls. -/
structure Run (Tx : Type) where
  outcome : Outcome Tx
  reader : Reader
  txCalls : Nat
  deriving DecidableEq

/-- The body of `ReadMempoolFromPath` from `readFileHeader(r)` on; `maxLen` is
the largest length `make([]MempoolEntry, n)` can allocate. -/
def decodeReader {Tx : Type} (maxLen : Nat) (Deserialize : TxDecoder Tx) (r : Reader)
    (readDeltas : Bool) : Run Tx :=
  match readFileHeader r with
  | (_, some err, r1) => ⟨.ret Mempool.zero (some (.wrapError .header err)), r1, 0⟩
  | (header, none, r1) =>
    let mem : Mempool Tx := ⟨header, none, none⟩
    match makeSlice maxLen MempoolEntry.zero header.numTx with
    | none => ⟨.runtimePanic, r1, 0⟩
    | some entries =>
      match readEntries Deserialize header.numTx.toNat 0 r1 entries 0 with
      | (some err, _, r2, calls) => ⟨.ret mem (some err), r2, calls⟩
      | (none, entries, r2, calls) =>
        let mem : Mempool Tx := ⟨header, some entries, none⟩
        if readDeltas then
          match readRemaining r2.err r2.rest none with
          | (_, some err) => ⟨.ret mem (some (.wrapError .feeDelta err)), ⟨[], r2.err⟩, calls⟩
          | (feeDelta, none) => ⟨.ret ⟨header, some entries, feeDelta⟩ none, ⟨[], r2.err⟩, calls⟩
        else
          ⟨.ret mem none, r2, calls⟩

/-- Function `ReadMempoolFromPath`; `osOpen` is `os.Open` and `maxLen` the
largest length `make([]MempoolEntry, n)` can allocate. -/
def ReadMempoolFromPath {Tx : Type} (maxLen : Nat) (osOpen : String → Except GoError File)
    (Deserialize : TxDecoder Tx) (path : String) (readDeltas : Bool) : Outcome Tx :=
  match osOpen path with
  | .error err => .ret Mempool.zero (some (.wrapError .openFile err))
  | .ok file => (decodeReader maxLen Deserialize (NewReader file) readDeltas).outcome

/-! ## Notions used to state the properties -/

/-- The reader state at which the loop of `ReadMempoolFromPath` calls
`readMempoolEntry` for entry `i`, when it enters the loop in state `r`: `r`
for entry 0, and for entry `i + 1` the state in which the call for entry `i`
left the reader. -/
def entryStart {Tx : Type} (Deserialize : TxDecoder Tx) : Nat → Reader → Reader
  | 0, r => r
  | i + 1, r => (readMempoolEntry Deserialize (entryStart Deserialize i r)).2.2

/-- Number of bytes between the reader state `r` at the start of the loop and
the timestamp field of entry `i`: the bytes of the entries before it and the
bytes of its transaction. -/
def timestampPos {Tx : Type} (Deserialize : TxDecoder Tx) (r : Reader) (i : Nat) : Nat :=
  (r.rest.length - (entryStart Deserialize i r).rest.length)
    + (Deserialize (entryStart Deserialize i r)).2.2

/-- A transaction decoder is self-delimiting when a successful decode depends
only on the bytes it consumed: on any reader that starts with the same bytes
it succeeds with the same transaction and the same number of bytes. -/
def SelfDelimiting {Tx : Type} (Deserialize : TxDecoder Tx) : Prop :=
  ∀ (r : Reader) (tx : Tx) (n : Nat), Deserialize r = (none, tx, n) → n ≤ r.rest.length →
    ∀ r2 : Reader, r2.rest.take n = r.rest.take n → n ≤ r2.rest.length →
      Deserialize r2 = (none, tx, n)

/-- The conversion `uint64(v)` of an `int64`. -/
def toUint64 (v : Int) : Nat := (v % 2 ^ 64).toNat

/-- The eight bytes `binary.LittleEndian.PutUint64` writes for `uint64(v)`:
the 64-bit little-endian form of an `int64`, following the layout
`[int64 LE ...]` of the specification. -/
def putLEint64 (v : Int) : List Byte :=
  (List.range 8).map (fun i => Fin.ofNat (toUint64 v / 256 ^ i))

/-- The signed 64-bit little-endian value of eight bytes, in the words of the
specification: the sum of `byte_i * 256 ^ i`, minus `2 ^ 64` when that sum is
at least `2 ^ 63`. -/
def signedLE (b : List Byte) : Int :=
  if 2 ^ 63 ≤ ((List.range 8).map (fun i => (b.getD i 0).val * 256 ^ i)).sum then
    ((((List.range 8).map (fun i => (b.getD i 0).val * 256 ^ i)).sum : Nat) : Int) - 2 ^ 64
  else
    ((((List.range 8).map (fun i => (b.getD i 0).val * 256 ^ i)).sum : Nat) : Int)

/-- The values of type `int64`. -/
def IsInt64 (v : Int) : Prop := -2 ^ 63 ≤ v ∧ v < 2 ^ 63

/-- The bytes of one entry, following the specification:
`[transaction bytes][int64 LE timestamp][int64 LE feeDelta]`, for a
transaction encoder `encodeTx`. -/
def encodeEntry {Tx : Type} (encodeTx : Tx → List Byte) (e : MempoolEntry Tx) : List Byte :=
  (match e.tx with
    | some tx => encodeTx tx
    | none => []) ++ putLEint64 e.timestamp ++ putLEint64 e.feeDelta

/-- The bytes of a file, following the specification:
`[int64 LE formatVersion][int64 LE entryCount][entry]*entryCount[trailing bytes]`. -/
def encodeMempool {Tx : Type} (encodeTx : Tx → List Byte) (mem : Mempool Tx) : List Byte :=
  putLEint64 mem.header.version ++ putLEint64 mem.header.numTx
    ++ (Slice.elems mem.entries).flatMap (encodeEntry encodeTx) ++ Slice.elems mem.mapDeltas

/-! ## Concrete data used to exercise the definitions -/

/-- A small transaction decoder: one length byte `n` followed by `n` payload
bytes; the transaction is the list of the bytes consumed. -/
def lenPrefixed : TxDecoder (List Byte) := fun r =>
  match r.rest with
  | [] => (some .EOF, [], 0)
  | n :: bs =>
    if n.val ≤ bs.length then (none, n :: bs.take n.val, n.val + 1)
    else (some .ErrUnexpectedEOF, [], bs.length + 1)

/-- The eight little-endian bytes of a number below 256. -/
def le8 (b : Byte) : List Byte := [b, 0, 0, 0, 0, 0, 0, 0]

/-- A file with version 1, two entries and two trailing bytes. -/
def sampleBytes : List Byte :=
  le8 1 ++ le8 2 ++ ([2, 7, 9] ++ le8 5 ++ le8 6) ++ ([0] ++ le8 3 ++ List.replicate 8 255)
    ++ [42, 43]

/-- An allocation limit of eight entries, enough for the sample files. -/
def smallLimit : Nat := 8

/-- A file system holding one regular file with the given content at every path. -/
def oneFile (content : List Byte) : String → Except GoError File :=
  fun _ => .ok ⟨content, .EOF⟩

/-! ## Reading fixed-width integers -/

theorem readFull_ok (r : Reader) (n : Nat) (h : n ≤ r.rest.length) :
    ReadFull r n = (r.rest.take n, none, r.advance n) := by
  simp [ReadFull, h]

theorem readLEint64_ok (r : Reader) (h : 8 ≤ r.rest.length) :
    readLEint64 r = (toInt64 (leUint64 (r.rest.take 8)), none, r.advance 8) := by
  simp [readLEint64, ReadFull, h]

theorem readLEint64_short (r : Reader) (h : r.rest.length < 8) :
    readLEint64 r =
      (0, some (if 0 < r.rest.length ∧ r.err = .EOF then .ErrUnexpectedEOF else r.err),
        r.advance r.rest.length) := by
  have h2 : ¬ 8 ≤ r.rest.length := by omega
  simp [readLEint64, ReadFull, h2]

theorem readLEint64_none {r r1 : Reader} {v : Int} (h : readLEint64 r = (v, none, r1)) :
    8 ≤ r.rest.length ∧ v = toInt64 (leUint64 (r.rest.take 8)) ∧ r1 = r.advance 8 := by
  by_cases h8 : 8 ≤ r.rest.length
  · rw [readLEint64_ok r h8] at h
    simp only [Prod.mk.injEq, true_and] at h
    exact ⟨h8, h.1.symm, h.2.symm⟩
  · rw [readLEint64_short r (by omega)] at h
    simp at h

theorem readFileHeader_none {r r2 : Reader} {hd : FileHeader}
    (h : readFileHeader r = (hd, none, r2)) :
    16 ≤ r.rest.length ∧ r2 = r.advance 16 ∧
      hd = ⟨toInt64 (leUint64 (r.rest.take 8)), toInt64 (leUint64 ((r.rest.drop 8).take 8))⟩ := by
  unfold readFileHeader at h
  rcases h1 : readLEint64 r with ⟨v1, e1, r1⟩
  rw [h1] at h
  cases e1 with
  | some e => simp at h
  | none =>
    obtain ⟨ha, hv1, hr1⟩ := readLEint64_none h1
    rcases h2 : readLEint64 r1 with ⟨v2, e2, r2a⟩
    simp only [h2] at h
    cases e2 with
    | some e => simp at h
    | none =>
      obtain ⟨hb, hv2, hr2⟩ := readLEint64_none h2
      simp only [Prod.mk.injEq, true_and] at h
      subst hr1
      simp only [Reader.advance, List.length_drop, List.drop_drop] at hb hv2 hr2
      refine ⟨by omega, ?_, ?_⟩
      · rw [← h.2, hr2]; simp [Reader.advance]
      · rw [← h.1, hv1, hv2]

/-! ## The entry loop -/

theorem readEntries_length {Tx : Type} (D : TxDecoder Tx) (k : Nat) :
    ∀ (i : Int) (r : Reader) (es : List (MempoolEntry Tx)) (c : Nat),
      (readEntries D k i r es c).2.1.length = es.length := by
  induction k with
  | zero => intro i r es c; rfl
  | succ k ih =>
    intro i r es c
    unfold readEntries
    rcases h1 : readMempoolEntry D r with ⟨m, e, r1⟩
    cases e with
    | some e => rfl
    | none => simp only [ih, List.length_set]

/-- Inversion of a successful run of the body of `ReadMempoolFromPath`. -/
theorem decodeReader_success {Tx : Type} {maxLen : Nat} {D : TxDecoder Tx} {r : Reader} {rd : Bool}
    {mem : Mempool Tx} (h : (decodeReader maxLen D r rd).outcome = .ret mem none) :
    ∃ r1 es r2 c, readFileHeader r = (mem.header, none, r1) ∧ 0 ≤ mem.header.numTx ∧
      readEntries D mem.header.numTx.toNat 0 r1
          (List.replicate mem.header.numTx.toNat MempoolEntry.zero) 0 = (none, es, r2, c) ∧
      mem.entries = some es ∧
      (rd = false → mem.mapDeltas = none ∧ decodeReader maxLen D r rd = ⟨.ret mem none, r2, c⟩) ∧
      (rd = true → readRemaining r2.err r2.rest none = (mem.mapDeltas, none) ∧
        decodeReader maxLen D r rd = ⟨.ret mem none, ⟨[], r2.err⟩, c⟩) := by
  unfold decodeReader at h ⊢
  rcases h1 : readFileHeader r with ⟨hd, e1, r1⟩
  rw [h1] at h
  cases e1 with
  | some e => simp at h
  | none =>
    simp only at h ⊢
    by_cases hout : hd.numTx < 0 ∨ (maxLen : Int) < hd.numTx
    · simp [makeSlice, hout] at h
    · have hneg : ¬ hd.numTx < 0 := fun hx => hout (Or.inl hx)
      simp only [makeSlice, hout, if_false] at h ⊢
      rcases h2 : readEntries D hd.numTx.toNat 0 r1
          (List.replicate hd.numTx.toNat MempoolEntry.zero) 0 with ⟨e2, es, r2, c⟩
      rw [h2] at h
      cases e2 with
      | some e => simp at h
      | none =>
        simp only at h ⊢
        cases rd with
        | false =>
          simp only [Bool.false_eq_true, if_false, Outcome.ret.injEq, and_true] at h
          subst h
          exact ⟨r1, es, r2, c, rfl, not_lt.mp hneg, h2, rfl, fun _ => ⟨rfl, rfl⟩,
            fun h => by simp at h⟩
        | true =>
          simp only [if_true] at h ⊢
          rcases h3 : readRemaining r2.err r2.rest none with ⟨fd, e3⟩
          rw [h3] at h
          cases e3 with
          | some e => simp at h
          | none =>
            simp only [Outcome.ret.injEq, and_true] at h
            subst h
            exact ⟨r1, es, r2, c, rfl, not_lt.mp hneg, h2, rfl, fun h => by simp at h,
              fun _ => ⟨h3, rfl⟩⟩

/-- A run that returns a `Mempool` holding entries passed `make`: the entry
count is within the allocation limit. -/
theorem decodeReader_entries_max {Tx : Type} {maxLen : Nat} {D : TxDecoder Tx} {r : Reader}
    {rd : Bool} {mem : Mempool Tx} {e : Option GoError} {es : List (MempoolEntry Tx)}
    (h : (decodeReader maxLen D r rd).outcome = .ret mem e) (hes : mem.entries = some es) :
    mem.header.numTx ≤ maxLen := by
  unfold decodeReader at h
  rcases h1 : readFileHeader r with ⟨hd, e1, r1⟩
  rw [h1] at h
  cases e1 with
  | some e1 =>
    simp only [Outcome.ret.injEq] at h
    rw [← h.1] at hes
    simp [Mempool.zero] at hes
  | none =>
    simp only at h
    by_cases hout : hd.numTx < 0 ∨ (maxLen : Int) < hd.numTx
    · simp [makeSlice, hout] at h
    · simp only [makeSlice, hout, if_false] at h
      rcases h2 : readEntries D hd.numTx.toNat 0 r1
          (List.replicate hd.numTx.toNat MempoolEntry.zero) 0 with ⟨e2, es2, r2, c⟩
      rw [h2] at h
      have hle : hd.numTx ≤ maxLen := by
        by_contra hc
        exact hout (Or.inr (not_le.mp hc))
      cases e2 with
      | some e2 =>
        simp only [Outcome.ret.injEq] at h
        rw [← h.1] at hes
        simp at hes
      | none =>
        simp only at h
        cases rd with
        | false =>
          simp only [Bool.false_eq_true, if_false, Outcome.ret.injEq] at h
          rw [← h.1]
          exact hle
        | true =>
          simp only [if_true] at h
          rcases h3 : readRemaining r2.err r2.rest none with ⟨fd, e3⟩
          rw [h3] at h
          cases e3 with
          | some e3 =>
            simp only [Outcome.ret.injEq] at h
            rw [← h.1]
            exact hle
          | none =>
            simp only [Outcome.ret.injEq] at h
            rw [← h.1]
            exact hle

/-- The slice built by the drain loop: the accumulator when nothing is left,
otherwise a non-nil slice of the accumulated bytes followed by the rest. -/
theorem readRemaining_eq (err : GoError) (bs : List Byte) :
    ∀ acc : Slice Byte, readRemaining err bs acc =
      ((match bs with
        | [] => acc
        | _ :: _ => some (Slice.elems acc ++ bs)),
       if err = .EOF then none else some err) := by
  induction bs with
  | nil => intro acc; by_cases h : err = .EOF <;> simp [readRemaining, h]
  | cons b bs ih =>
    intro acc
    rw [readRemaining, ih]
    cases bs with
    | nil => cases acc <;> simp [goAppend, Slice.elems]
    | cons b2 bs => cases acc <;> simp [goAppend, Slice.elems]

/-- The run of the body once the header and all entries were read. -/
theorem decodeReader_of_entries {Tx : Type} {maxLen : Nat} {D : TxDecoder Tx} {r r1 r2 : Reader}
    {hd : FileHeader} {es : List (MempoolEntry Tx)} {c : Nat}
    (h1 : readFileHeader r = (hd, none, r1)) (hn : 0 ≤ hd.numTx) (hmax : hd.numTx ≤ maxLen)
    (h2 : readEntries D hd.numTx.toNat 0 r1
      (List.replicate hd.numTx.toNat MempoolEntry.zero) 0 = (none, es, r2, c)) :
    decodeReader maxLen D r false = ⟨.ret ⟨hd, some es, none⟩ none, r2, c⟩ ∧
    decodeReader maxLen D r true =
      (match readRemaining r2.err r2.rest none with
        | (_, some err) =>
          ⟨.ret ⟨hd, some es, none⟩ (some (.wrapError .feeDelta err)), ⟨[], r2.err⟩, c⟩
        | (feeDelta, none) => ⟨.ret ⟨hd, some es, feeDelta⟩ none, ⟨[], r2.err⟩, c⟩) := by
  have hout : ¬ (hd.numTx < 0 ∨ (maxLen : Int) < hd.numTx) := by omega
  constructor <;> simp [decodeReader, h1, makeSlice, hout, h2]

/-- The run of the body when the header cannot be read. -/
theorem decodeReader_header_error {Tx : Type} {maxLen : Nat} (D : TxDecoder Tx) {r r1 : Reader}
    {hd : FileHeader} {e : GoError} (rd : Bool) (h1 : readFileHeader r = (hd, some e, r1)) :
    decodeReader maxLen D r rd = ⟨.ret Mempool.zero (some (.wrapError .header e)), r1, 0⟩ := by
  simp [decodeReader, h1]

/-- The run of the body when the header holds a negative entry count. -/
theorem decodeReader_negative_count {Tx : Type} {maxLen : Nat} (D : TxDecoder Tx) {r r1 : Reader}
    {hd : FileHeader} (rd : Bool) (h1 : readFileHeader r = (hd, none, r1))
    (hneg : hd.numTx < 0) : decodeReader maxLen D r rd = ⟨.runtimePanic, r1, 0⟩ := by
  simp [decodeReader, h1, makeSlice, hneg]

/-- The run of the body when the header holds an entry count above the
allocation limit. -/
theorem decodeReader_count_too_large {Tx : Type} {maxLen : Nat} (D : TxDecoder Tx)
    {r r1 : Reader} {hd : FileHeader} (rd : Bool) (h1 : readFileHeader r = (hd, none, r1))
    (hbig : (maxLen : Int) < hd.numTx) : decodeReader maxLen D r rd = ⟨.runtimePanic, r1, 0⟩ := by
  simp [decodeReader, h1, makeSlice, hbig]

/-- The run of the body when the entry loop fails. -/
theorem decodeReader_entry_error {Tx : Type} {maxLen : Nat} {D : TxDecoder Tx} {r r1 r2 : Reader}
    {hd : FileHeader} {es : List (MempoolEntry Tx)} {c : Nat} {e : GoError} (rd : Bool)
    (h1 : readFileHeader r = (hd, none, r1)) (hn : 0 ≤ hd.numTx) (hmax : hd.numTx ≤ maxLen)
    (h2 : readEntries D hd.numTx.toNat 0 r1
      (List.replicate hd.numTx.toNat MempoolEntry.zero) 0 = (some e, es, r2, c)) :
    decodeReader maxLen D r rd = ⟨.ret ⟨hd, none, none⟩ (some e), r2, c⟩ := by
  have hout : ¬ (hd.numTx < 0 ∨ (maxLen : Int) < hd.numTx) := by omega
  simp [decodeReader, h1, makeSlice, hout, h2]

/-- An error of the entry loop is an entry error. -/
theorem readEntries_error_site {Tx : Type} (D : TxDecoder Tx) (k : Nat) :
    ∀ (i : Int) (r : Reader) (es : List (MempoolEntry Tx)) (c : Nat) (e : GoError),
      (readEntries D k i r es c).1 = some e →
        ∃ j cause, e = .wrapError (.entry j) cause := by
  induction k with
  | zero => intro i r es c e h; simp [readEntries] at h
  | succ k ih =>
    intro i r es c e h
    unfold readEntries at h
    rcases h1 : readMempoolEntry D r with ⟨m, e1, r1⟩
    rw [h1] at h
    cases e1 with
    | some e1 =>
      simp only [Option.some.injEq] at h
      exact ⟨i, e1, h.symm⟩
    | none => exact ih _ _ _ _ _ h

/-- One iteration of the loop. -/
theorem readEntries_succ {Tx : Type} (D : TxDecoder Tx) (k : Nat) (i : Int) (r : Reader)
    (es : List (MempoolEntry Tx)) (c : Nat) :
    readEntries D (k + 1) i r es c =
      (match readMempoolEntry D r with
        | (_, some err, r1) => (some (.wrapError (.entry i) err), es, r1, c + 1)
        | (mementry, none, r1) =>
          readEntries D k (i + 1) r1 (es.set i.toNat mementry) (c + 1)) := rfl

/-- Running `k + j` iterations is running `k` and then, if none failed, `j`. -/
theorem readEntries_split {Tx : Type} (D : TxDecoder Tx) (k j : Nat) :
    ∀ (i : Int) (r : Reader) (es : List (MempoolEntry Tx)) (c : Nat),
      readEntries D (k + j) i r es c =
        (match readEntries D k i r es c with
          | (some e, es1, r1, c1) => (some e, es1, r1, c1)
          | (none, es1, r1, c1) => readEntries D j (i + k) r1 es1 c1) := by
  induction k with
  | zero => intro i r es c; simp [readEntries]
  | succ k ih =>
    intro i r es c
    rw [Nat.succ_add]
    simp only [readEntries_succ]
    rcases h1 : readMempoolEntry D r with ⟨m, e, r1⟩
    cases e with
    | some e => rfl
    | none =>
      simp only
      rw [ih]
      have : i + 1 + (k : Int) = i + ((k + 1 : Nat) : Int) := by push_cast; ring
      rw [this]

/-- A loop that does not fail makes one call per iteration. -/
theorem readEntries_calls {Tx : Type} (D : TxDecoder Tx) (k : Nat) :
    ∀ (i : Int) (r : Reader) (es es1 : List (MempoolEntry Tx)) (c c1 : Nat) (r1 : Reader),
      readEntries D k i r es c = (none, es1, r1, c1) → c1 = c + k := by
  induction k with
  | zero => intro i r es es1 c c1 r1 h; simp [readEntries] at h; omega
  | succ k ih =>
    intro i r es es1 c c1 r1 h
    unfold readEntries at h
    rcases h1 : readMempoolEntry D r with ⟨m, e, r2⟩
    rw [h1] at h
    cases e with
    | some e => simp at h
    | none =>
      have := ih _ _ _ _ _ _ _ h
      omega

/-! ## Claims -/

/-- C1: whenever `ReadMempoolFromPath` succeeds, for either value of the flag,
the returned entries slice has exactly as many elements as the entry count in
the returned header. -/
theorem success_entries_length_eq_numTx {Tx : Type} (maxLen : Nat) (osOpen : String → Except GoError File)
    (D : TxDecoder Tx) (path : String) (readDeltas : Bool) (mem : Mempool Tx)
    (h : ReadMempoolFromPath maxLen osOpen D path readDeltas = .ret mem none) :
    ∃ es, mem.entries = some es ∧ (es.length : Int) = mem.header.numTx := by
  unfold ReadMempoolFromPath at h
  cases ho : osOpen path with
  | error e => rw [ho] at h; simp at h
  | ok file =>
    rw [ho] at h
    obtain ⟨r1, es, r2, c, -, hn, hloop, hes, -, -⟩ := decodeReader_success h
    refine ⟨es, hes, ?_⟩
    have hl := readEntries_length D mem.header.numTx.toNat 0 r1
      (List.replicate mem.header.numTx.toNat MempoolEntry.zero) 0
    rw [hloop] at hl
    simp only [List.length_replicate] at hl
    rw [hl]
    exact Int.toNat_of_nonneg hn

theorem success_entries_length_eq_numTx_witness :
    ReadMempoolFromPath smallLimit (oneFile sampleBytes) lenPrefixed "mempool.dat" true =
        .ret ⟨⟨1, 2⟩, some [⟨some [2, 7, 9], 5, 6⟩, ⟨some [0], 3, -1⟩], some [42, 43]⟩ none ∧
      ∃ es, (Mempool.mk ⟨1, 2⟩ (some [⟨some [2, 7, 9], 5, 6⟩, ⟨some [0], 3, -1⟩])
          (some [42, 43]) : Mempool (List Byte)).entries = some es ∧ (es.length : Int) = 2 :=
  ⟨by rfl, success_entries_length_eq_numTx smallLimit (oneFile sampleBytes) lenPrefixed "mempool.dat" true
    _ (by rfl)⟩

/-- C2 (the code departs from the claim): on the 16-byte file with version 1
and entry count -1 the call does not return an error, it ends in the run-time
panic of `make` with a negative length, whatever the allocation limit, the
transaction decoder and the flag are, before any `Deserialize` call. -/
theorem negative_count_runtime_panic {Tx : Type} (maxLen : Nat) (D : TxDecoder Tx) (readDeltas : Bool) :
    ReadMempoolFromPath maxLen (oneFile (le8 1 ++ List.replicate 8 255)) D "mempool.dat" readDeltas
        = .runtimePanic ∧
      decodeReader maxLen D ⟨le8 1 ++ List.replicate 8 255, .EOF⟩ readDeltas
        = ⟨.runtimePanic, ⟨[], .EOF⟩, 0⟩ := by
  have h : decodeReader maxLen D ⟨le8 1 ++ List.replicate 8 255, .EOF⟩ readDeltas
      = ⟨.runtimePanic, ⟨[], .EOF⟩, 0⟩ :=
    decodeReader_negative_count D readDeltas
      (show readFileHeader ⟨le8 1 ++ List.replicate 8 255, .EOF⟩
        = ((⟨1, -1⟩ : FileHeader), none, ⟨[], .EOF⟩) by rfl) (by decide)
  refine ⟨?_, h⟩
  show (decodeReader maxLen D ⟨le8 1 ++ List.replicate 8 255, .EOF⟩ readDeltas).outcome = _
  rw [h]

/-- C3 (as stated, refuted): a file announcing one entry and ending after the
header makes the call fail at entry 0, and the `Mempool` returned with the
error holds the decoded header, so it is not the zero value. -/
theorem error_mempool_not_zero :
    ReadMempoolFromPath smallLimit (oneFile (le8 1 ++ le8 1)) lenPrefixed "mempool.dat" false
        = .ret ⟨⟨1, 1⟩, none, none⟩ (some (.wrapError (.entry 0) .EOF)) ∧
      (⟨⟨1, 1⟩, none, none⟩ : Mempool (List Byte)) ≠ Mempool.zero :=
  ⟨by rfl, by decide⟩

/-- C3 (amended): whenever `ReadMempoolFromPath` returns an error, the
`Mempool` returned with it has no trailing bytes, and it is the zero value
after an open or header failure, holds the decoded header and no entries
after an entry failure, and is the `Mempool` the call without the flag
returns after a failure of the trailing drain. -/
theorem error_mempool_shape {Tx : Type} (maxLen : Nat) (osOpen : String → Except GoError File)
    (D : TxDecoder Tx) (path : String) (readDeltas : Bool) (mem : Mempool Tx) (err : GoError)
    (h : ReadMempoolFromPath maxLen osOpen D path readDeltas = .ret mem (some err)) :
    mem.mapDeltas = none ∧
      ((∃ cause, err = .wrapError .openFile cause ∧ osOpen path = .error cause ∧
          mem = Mempool.zero) ∨
       (∃ cause, err = .wrapError .header cause ∧ mem = Mempool.zero) ∨
       (∃ i cause file r1, err = .wrapError (.entry i) cause ∧ osOpen path = .ok file ∧
          readFileHeader (NewReader file) = (mem.header, none, r1) ∧ mem.entries = none) ∨
       (∃ cause, err = .wrapError .feeDelta cause ∧ readDeltas = true ∧
          ReadMempoolFromPath maxLen osOpen D path false = .ret mem none)) := by
  unfold ReadMempoolFromPath at h
  cases ho : osOpen path with
  | error e =>
    rw [ho] at h
    simp only [Outcome.ret.injEq, Option.some.injEq] at h
    obtain ⟨hm, he⟩ := h
    subst hm
    exact ⟨rfl, Or.inl ⟨e, he.symm, rfl, rfl⟩⟩
  | ok file =>
    rw [ho] at h
    simp only at h
    rcases h1 : readFileHeader (NewReader file) with ⟨hd, e1, r1⟩
    cases e1 with
    | some e1 =>
      rw [decodeReader_header_error D readDeltas h1] at h
      simp only [Outcome.ret.injEq, Option.some.injEq] at h
      obtain ⟨hm, he⟩ := h
      subst hm
      exact ⟨rfl, Or.inr (Or.inl ⟨e1, he.symm, rfl⟩)⟩
    | none =>
      by_cases hneg : hd.numTx < 0
      · rw [decodeReader_negative_count D readDeltas h1 hneg] at h
        simp at h
      by_cases hbig : (maxLen : Int) < hd.numTx
      · rw [decodeReader_count_too_large D readDeltas h1 hbig] at h
        simp at h
      · have hn : 0 ≤ hd.numTx := not_lt.mp hneg
        have hmax : hd.numTx ≤ maxLen := not_lt.mp hbig
        rcases h2 : readEntries D hd.numTx.toNat 0 r1
            (List.replicate hd.numTx.toNat MempoolEntry.zero) 0 with ⟨e2, es, r2, c⟩
        cases e2 with
        | some e2 =>
          rw [decodeReader_entry_error readDeltas h1 hn hmax h2] at h
          simp only [Outcome.ret.injEq, Option.some.injEq] at h
          obtain ⟨hm, he⟩ := h
          subst hm
          obtain ⟨j, cause, hj⟩ :=
            readEntries_error_site D _ _ _ _ _ e2 (by rw [h2])
          exact ⟨rfl, Or.inr (Or.inr (Or.inl ⟨j, cause, file, r1, by rw [← he, hj], rfl, h1, rfl⟩))⟩
        | none =>
          obtain ⟨hf, ht⟩ := decodeReader_of_entries h1 hn hmax h2
          cases readDeltas with
          | false => rw [hf] at h; simp at h
          | true =>
            rw [ht] at h
            rcases h3 : readRemaining r2.err r2.rest none with ⟨fd, e3⟩
            rw [h3] at h
            cases e3 with
            | none => simp at h
            | some e3 =>
              simp only [Outcome.ret.injEq, Option.some.injEq] at h
              obtain ⟨hm, he⟩ := h
              subst hm
              refine ⟨rfl, Or.inr (Or.inr (Or.inr ⟨e3, he.symm, rfl, ?_⟩))⟩
              unfold ReadMempoolFromPath
              rw [ho]
              simp only [hf]

theorem error_mempool_shape_witness :
    ReadMempoolFromPath smallLimit (oneFile (le8 1 ++ le8 1)) lenPrefixed "mempool.dat" false
        = .ret ⟨⟨1, 1⟩, none, none⟩ (some (.wrapError (.entry 0) .EOF)) ∧
      ((⟨⟨1, 1⟩, none, none⟩ : Mempool (List Byte)).mapDeltas = none ∧
      ((∃ cause, GoError.wrapError (.entry 0) .EOF = .wrapError .openFile cause ∧
          oneFile (le8 1 ++ le8 1) "mempool.dat" = .error cause ∧
          (⟨⟨1, 1⟩, none, none⟩ : Mempool (List Byte)) = Mempool.zero) ∨
       (∃ cause, GoError.wrapError (.entry 0) .EOF = .wrapError .header cause ∧
          (⟨⟨1, 1⟩, none, none⟩ : Mempool (List Byte)) = Mempool.zero) ∨
       (∃ i cause file r1, GoError.wrapError (.entry 0) .EOF = .wrapError (.entry i) cause ∧
          oneFile (le8 1 ++ le8 1) "mempool.dat" = .ok file ∧
          readFileHeader (NewReader file)
            = ((⟨⟨1, 1⟩, none, none⟩ : Mempool (List Byte)).header, none, r1) ∧
          (⟨⟨1, 1⟩, none, none⟩ : Mempool (List Byte)).entries = none) ∨
       (∃ cause, GoError.wrapError (.entry 0) .EOF = .wrapError .feeDelta cause ∧
          false = true ∧
          ReadMempoolFromPath smallLimit (oneFile (le8 1 ++ le8 1)) lenPrefixed "mempool.dat" false
            = .ret ⟨⟨1, 1⟩, none, none⟩ none))) :=
  ⟨by rfl, error_mempool_shape smallLimit (oneFile (le8 1 ++ le8 1)) lenPrefixed "mempool.dat" false
    _ _ (by rfl)⟩

/-- C4 (as stated, refuted): on the 16-byte file with version 1 and no entry,
hence with no byte after the last entry, the call with the flag set returns a
`nil` trailing slice, the same `Mempool` as the call without the flag. -/
theorem empty_trailing_is_nil :
    ReadMempoolFromPath smallLimit (oneFile (le8 1 ++ le8 0)) lenPrefixed "mempool.dat" true
        = .ret ⟨⟨1, 0⟩, some [], none⟩ none ∧
      ReadMempoolFromPath smallLimit (oneFile (le8 1 ++ le8 0)) lenPrefixed "mempool.dat" false
        = .ret ⟨⟨1, 0⟩, some [], none⟩ none :=
  ⟨by rfl, by rfl⟩

/-- C4 (amended): for every regular file whose header and declared entries
decode and which ends with its last entry, the call with the flag set
succeeds with a `nil` trailing slice and returns the same `Mempool` as the
call without the flag. -/
theorem empty_trailing_same_as_not_requested {Tx : Type} (maxLen : Nat)
    (osOpen : String → Except GoError File) (D : TxDecoder Tx) (path : String)
    (data : List Byte) (mem : Mempool Tx) (c : Nat)
    (hopen : osOpen path = .ok ⟨data, .EOF⟩)
    (hdec : decodeReader maxLen D ⟨data, .EOF⟩ false = ⟨.ret mem none, ⟨[], .EOF⟩, c⟩) :
    ReadMempoolFromPath maxLen osOpen D path true = .ret mem none ∧ mem.mapDeltas = none ∧
      ReadMempoolFromPath maxLen osOpen D path false = .ret mem none := by
  have hout : (decodeReader maxLen D ⟨data, .EOF⟩ false).outcome = .ret mem none := by rw [hdec]
  obtain ⟨r1, es, r2, c2, h1, hn, h2, hes, hfalse, -⟩ := decodeReader_success hout
  obtain ⟨hmd, hrun⟩ := hfalse rfl
  rw [hdec] at hrun
  have hr2 : r2 = ⟨[], .EOF⟩ := by
    have := congrArg Run.reader hrun
    exact this.symm
  subst hr2
  obtain ⟨-, ht⟩ := decodeReader_of_entries h1 hn (decodeReader_entries_max hout hes) h2
  have hmem : mem = ⟨mem.header, some es, none⟩ := by
    cases mem
    simp only at hes hmd
    subst hes
    subst hmd
    rfl
  refine ⟨?_, hmd, ?_⟩
  · unfold ReadMempoolFromPath
    rw [hopen]
    show (decodeReader maxLen D ⟨data, .EOF⟩ true).outcome = _
    rw [ht]
    simp only [readRemaining, if_true]
    rw [← hmem]
  · unfold ReadMempoolFromPath
    rw [hopen]
    exact hout

theorem empty_trailing_same_as_not_requested_witness :
    (oneFile (le8 1 ++ le8 0) "mempool.dat" = .ok ⟨le8 1 ++ le8 0, .EOF⟩ ∧
      decodeReader smallLimit lenPrefixed ⟨le8 1 ++ le8 0, .EOF⟩ false
        = ⟨.ret ⟨⟨1, 0⟩, some [], none⟩ none, ⟨[], .EOF⟩, 0⟩) ∧
    (ReadMempoolFromPath smallLimit (oneFile (le8 1 ++ le8 0)) lenPrefixed "mempool.dat" true
        = .ret ⟨⟨1, 0⟩, some [], none⟩ none ∧
      (⟨⟨1, 0⟩, some [], none⟩ : Mempool (List Byte)).mapDeltas = none ∧
      ReadMempoolFromPath smallLimit (oneFile (le8 1 ++ le8 0)) lenPrefixed "mempool.dat" false
        = .ret ⟨⟨1, 0⟩, some [], none⟩ none) :=
  ⟨⟨rfl, by rfl⟩, empty_trailing_same_as_not_requested smallLimit (oneFile (le8 1 ++ le8 0)) lenPrefixed
    "mempool.dat" (le8 1 ++ le8 0) _ 0 rfl (by rfl)⟩

/-- Entry failures within the allocation limit: when the header announces `N`
entries with `0 ≤ N ≤ maxLen`, the first `k < N` entries decode and entry `k`
does not (the transaction decoder fails on it, or fewer than 16 bytes follow
its transaction, `cause` being the error of the failing read), the call
returns the entry error for index `k` wrapping `cause`, and `Deserialize` has
been called `k + 1` times: no later entry is attempted. -/
theorem entry_failure_reports_index {Tx : Type} (maxLen : Nat) (osOpen : String → Except GoError File)
    (D : TxDecoder Tx) (path : String) (readDeltas : Bool) (file : File) (hd : FileHeader)
    (r0 rk : Reader) (k ck n : Nat) (es : List (MempoolEntry Tx)) (tx : Tx) (cause : GoError)
    (hopen : osOpen path = .ok file)
    (hhead : readFileHeader (NewReader file) = (hd, none, r0))
    (hk : (k : Int) < hd.numTx) (hmax : hd.numTx ≤ maxLen)
    (hfirst : readEntries D k 0 r0 (List.replicate hd.numTx.toNat MempoolEntry.zero) 0
      = (none, es, rk, ck))
    (hfail : D rk = (some cause, tx, n) ∨
      (D rk = (none, tx, n) ∧ (rk.advance n).rest.length < 16 ∧
        some cause = if (rk.advance n).rest.length < 8 then (readLEint64 (rk.advance n)).2.1
          else (readLEint64 ((rk.advance n).advance 8)).2.1)) :
    ReadMempoolFromPath maxLen osOpen D path readDeltas
        = .ret ⟨hd, none, none⟩ (some (.wrapError (.entry k) cause)) ∧
      GoError.Unwrap (.wrapError (.entry k) cause) = some cause ∧
      (decodeReader maxLen D (NewReader file) readDeltas).txCalls = k + 1 := by
  have hentry : (readMempoolEntry D rk).2.1 = some cause := by
    rcases hfail with h | ⟨h, hlen, hc⟩
    · simp [readMempoolEntry, h]
    · by_cases h8 : (rk.advance n).rest.length < 8
      · rw [if_pos h8, readLEint64_short _ h8] at hc
        simp only at hc
        simp only [readMempoolEntry, h, readLEint64_short _ h8, ← hc]
      · rw [if_neg h8] at hc
        have h8b : ((rk.advance n).advance 8).rest.length < 8 := by
          simp only [Reader.advance, List.length_drop] at hlen h8 ⊢
          omega
        rw [readLEint64_short _ h8b] at hc
        simp only at hc
        simp only [readMempoolEntry, h, readLEint64_ok _ (not_lt.mp h8),
          readLEint64_short _ h8b, ← hc]
  rcases hm : readMempoolEntry D rk with ⟨m, e, rf⟩
  rw [hm] at hentry
  simp only at hentry
  subst hentry
  have hn : 0 ≤ hd.numTx := by omega
  obtain ⟨j, hj⟩ : ∃ j, hd.numTx.toNat = k + (j + 1) := ⟨hd.numTx.toNat - k - 1, by omega⟩
  have hck := readEntries_calls D k _ _ _ _ _ _ _ hfirst
  have hloop : readEntries D hd.numTx.toNat 0 r0
      (List.replicate hd.numTx.toNat MempoolEntry.zero) 0
      = (some (.wrapError (.entry k) cause), es, rf, k + 1) := by
    rw [hj, readEntries_split, ← hj, hfirst]
    simp only [readEntries, hm, zero_add]
    rw [hck, zero_add]
  have hrun : decodeReader maxLen D (NewReader file) readDeltas
      = ⟨.ret ⟨hd, none, none⟩ (some (.wrapError (.entry k) cause)), rf, k + 1⟩ :=
    decodeReader_entry_error readDeltas hhead hn hmax hloop
  refine ⟨?_, rfl, by rw [hrun]⟩
  unfold ReadMempoolFromPath
  rw [hopen]
  simp only [hrun]

theorem entry_failure_reports_index_witness :
    (oneFile (sampleBytes.take 37) "mempool.dat" = .ok ⟨sampleBytes.take 37, .EOF⟩ ∧
      readFileHeader (NewReader ⟨sampleBytes.take 37, .EOF⟩)
        = (⟨1, 2⟩, none, ⟨(sampleBytes.take 37).drop 16, .EOF⟩) ∧
      ((1 : Nat) : Int) < (⟨1, 2⟩ : FileHeader).numTx ∧
      (⟨1, 2⟩ : FileHeader).numTx ≤ (smallLimit : Int)) ∧
    (ReadMempoolFromPath smallLimit (oneFile (sampleBytes.take 37)) lenPrefixed "mempool.dat" true
        = .ret ⟨⟨1, 2⟩, none, none⟩ (some (.wrapError (.entry (1 : Nat)) .ErrUnexpectedEOF)) ∧
      GoError.Unwrap (.wrapError (.entry (1 : Nat)) .ErrUnexpectedEOF)
        = some .ErrUnexpectedEOF ∧
      (decodeReader smallLimit lenPrefixed (NewReader ⟨sampleBytes.take 37, .EOF⟩) true).txCalls = 1 + 1) :=
  ⟨⟨rfl, by rfl, by decide, by decide⟩,
    entry_failure_reports_index smallLimit (oneFile (sampleBytes.take 37)) lenPrefixed "mempool.dat" true
      ⟨sampleBytes.take 37, .EOF⟩ ⟨1, 2⟩ ⟨(sampleBytes.take 37).drop 16, .EOF⟩
      ⟨[0, 3], .EOF⟩ 1 1 1
      [⟨some [2, 7, 9], 5, 6⟩, MempoolEntry.zero] [0] .ErrUnexpectedEOF
      rfl (by rfl) (by decide) (by decide) (by rfl) (Or.inr ⟨by rfl, by decide, by rfl⟩)⟩

/-! ## Entries in file order -/

theorem entryStart_succ_left {Tx : Type} (D : TxDecoder Tx) (j : Nat) (r : Reader) :
    entryStart D (j + 1) r = entryStart D j (readMempoolEntry D r).2.2 := by
  induction j with
  | zero => rfl
  | succ j ih =>
    show (readMempoolEntry D (entryStart D (j + 1) r)).2.2 = _
    rw [ih]
    rfl

/-- What a loop that does not fail computes: iteration `j` decodes the entry
that starts where iteration `j - 1` stopped and stores it at index `i0 + j`;
the elements below `i0` are left alone. -/
theorem readEntries_spec {Tx : Type} (D : TxDecoder Tx) (k : Nat) :
    ∀ (i0 : Nat) (r : Reader) (es es1 : List (MempoolEntry Tx)) (c c1 : Nat) (r1 : Reader),
      readEntries D k (i0 : Int) r es c = (none, es1, r1, c1) → i0 + k ≤ es.length →
        r1 = entryStart D k r ∧
        (∀ j, j < k → ∃ e, readMempoolEntry D (entryStart D j r)
            = (e, none, entryStart D (j + 1) r) ∧ es1[i0 + j]? = some e) ∧
        (∀ j, j < i0 → es1[j]? = es[j]?) := by
  induction k with
  | zero =>
    intro i0 r es es1 c c1 r1 h _
    simp only [readEntries, Prod.mk.injEq, true_and] at h
    obtain ⟨h1, h2, -⟩ := h
    subst h1
    subst h2
    exact ⟨rfl, fun j hj => absurd hj (Nat.not_lt_zero j), fun j _ => rfl⟩
  | succ k ih =>
    intro i0 r es es1 c c1 r1 h hlen
    rw [readEntries_succ] at h
    rcases hm : readMempoolEntry D r with ⟨m, e, r2⟩
    rw [hm] at h
    cases e with
    | some e => simp at h
    | none =>
      simp only [Int.toNat_natCast] at h
      have hcast : (i0 : Int) + 1 = ((i0 + 1 : Nat) : Int) := by push_cast; rfl
      rw [hcast] at h
      have hr2 : (readMempoolEntry D r).2.2 = r2 := by rw [hm]
      obtain ⟨ha, hb, hc⟩ := ih (i0 + 1) r2 _ es1 _ c1 r1 h (by simp only [List.length_set]; omega)
      refine ⟨by rw [entryStart_succ_left, hr2]; exact ha, ?_, ?_⟩
      · intro j hj
        cases j with
        | zero =>
          refine ⟨m, ?_, ?_⟩
          · show readMempoolEntry D r = (m, none, (readMempoolEntry D r).2.2)
            rw [hm]
          · rw [Nat.add_zero, hc i0 (by omega)]
            exact List.getElem?_set_self (by omega)
        | succ j =>
          obtain ⟨e, he1, he2⟩ := hb j (by omega)
          refine ⟨e, ?_, ?_⟩
          · rw [entryStart_succ_left D (j + 1), entryStart_succ_left D j, hr2]
            exact he1
          · rw [← he2]
            congr 1
            omega
      · intro j hj
        rw [hc j (by omega)]
        exact List.getElem?_set_ne (by omega)

/-- C6: after a successful call, for every index `i` below the number of
entries, `entries[i]` is the entry that `readMempoolEntry` decodes from the
position where the call for entry `i - 1` stopped, the position of entry 0
being byte offset 16 of the file; it leaves the reader at the position of
entry `i + 1`. -/
theorem entries_in_file_order {Tx : Type} (maxLen : Nat) (osOpen : String → Except GoError File)
    (D : TxDecoder Tx) (path : String) (readDeltas : Bool) (file : File) (mem : Mempool Tx)
    (hopen : osOpen path = .ok file)
    (h : ReadMempoolFromPath maxLen osOpen D path readDeltas = .ret mem none) :
    ∃ es, mem.entries = some es ∧ (es.length : Int) = mem.header.numTx ∧
      ∀ i, i < es.length →
        ∃ e, readMempoolEntry D (entryStart D i ((NewReader file).advance 16))
            = (e, none, entryStart D (i + 1) ((NewReader file).advance 16)) ∧
          es[i]? = some e := by
  unfold ReadMempoolFromPath at h
  rw [hopen] at h
  obtain ⟨r1, es, r2, c, h1, hn, hloop, hes, -, -⟩ := decodeReader_success h
  obtain ⟨-, hr1, -⟩ := readFileHeader_none h1
  have hl := readEntries_length D mem.header.numTx.toNat 0 r1
    (List.replicate mem.header.numTx.toNat MempoolEntry.zero) 0
  rw [hloop] at hl
  simp only [List.length_replicate] at hl
  obtain ⟨-, hb, -⟩ := readEntries_spec D _ 0 r1 _ es 0 c r2 hloop
    (by simp only [List.length_replicate]; omega)
  refine ⟨es, hes, by rw [hl]; exact Int.toNat_of_nonneg hn, ?_⟩
  intro i hi
  obtain ⟨e, he1, he2⟩ := hb i (by omega)
  rw [hr1] at he1
  exact ⟨e, he1, by rw [← he2, Nat.zero_add]⟩

theorem entries_in_file_order_witness :
    (oneFile sampleBytes "mempool.dat" = .ok ⟨sampleBytes, .EOF⟩ ∧
      ReadMempoolFromPath smallLimit (oneFile sampleBytes) lenPrefixed "mempool.dat" false
        = .ret ⟨⟨1, 2⟩, some [⟨some [2, 7, 9], 5, 6⟩, ⟨some [0], 3, -1⟩], none⟩ none) ∧
    ∃ es, (Mempool.mk ⟨1, 2⟩ (some [⟨some [2, 7, 9], 5, 6⟩, ⟨some [0], 3, -1⟩]) none
        : Mempool (List Byte)).entries = some es ∧ (es.length : Int) = 2 ∧
      ∀ i, i < es.length →
        ∃ e, readMempoolEntry lenPrefixed
              (entryStart lenPrefixed i ((NewReader ⟨sampleBytes, .EOF⟩).advance 16))
            = (e, none,
              entryStart lenPrefixed (i + 1) ((NewReader ⟨sampleBytes, .EOF⟩).advance 16)) ∧
          es[i]? = some e :=
  ⟨⟨rfl, by rfl⟩, entries_in_file_order smallLimit (oneFile sampleBytes) lenPrefixed "mempool.dat" false
    ⟨sampleBytes, .EOF⟩ _ rfl (by rfl)⟩

/-! ## Bytes consumed by the reads -/

theorem readLEint64_append (b s : List Byte) (e : GoError) (hb : b.length = 8) :
    readLEint64 ⟨b ++ s, e⟩ = (toInt64 (leUint64 b), none, ⟨s, e⟩) := by
  rw [readLEint64_ok _ (by simp only [List.length_append]; omega)]
  have h1 : (b ++ s).take 8 = b := by rw [← hb]; exact List.take_left b s
  have h2 : (b ++ s).drop 8 = s := by rw [← hb]; exact List.drop_left b s
  simp only [Reader.advance, h1, h2]

theorem readFileHeader_append (b1 b2 s : List Byte) (e : GoError) (h1 : b1.length = 8)
    (h2 : b2.length = 8) :
    readFileHeader ⟨b1 ++ (b2 ++ s), e⟩
      = (⟨toInt64 (leUint64 b1), toInt64 (leUint64 b2)⟩, none, ⟨s, e⟩) := by
  simp only [readFileHeader, readLEint64_append _ _ _ h1, readLEint64_append _ _ _ h2]

/-- A successful `readLEint64` consumed eight bytes. -/
theorem readLEint64_decomp {r r1 : Reader} {v : Int} (h : readLEint64 r = (v, none, r1)) :
    ∃ b, b.length = 8 ∧ r.rest = b ++ r1.rest ∧ r1.err = r.err ∧ v = toInt64 (leUint64 b) := by
  obtain ⟨h8, hv, hr⟩ := readLEint64_none h
  refine ⟨r.rest.take 8, by simp only [List.length_take]; omega, ?_, ?_, hv⟩
  · rw [hr]; exact (List.take_append_drop 8 r.rest).symm
  · rw [hr]; rfl

/-- A successful `readFileHeader` consumed sixteen bytes. -/
theorem readFileHeader_decomp {r r1 : Reader} {hd : FileHeader}
    (h : readFileHeader r = (hd, none, r1)) :
    ∃ b1 b2, b1.length = 8 ∧ b2.length = 8 ∧ r.rest = b1 ++ (b2 ++ r1.rest) ∧ r1.err = r.err ∧
      hd = ⟨toInt64 (leUint64 b1), toInt64 (leUint64 b2)⟩ := by
  unfold readFileHeader at h
  rcases ha : readLEint64 r with ⟨v1, e1, ra⟩
  rw [ha] at h
  cases e1 with
  | some e => simp at h
  | none =>
    rcases hb : readLEint64 ra with ⟨v2, e2, rb⟩
    simp only [hb] at h
    cases e2 with
    | some e => simp at h
    | none =>
      simp only [Prod.mk.injEq, true_and] at h
      obtain ⟨b1, hl1, hr1, he1, hv1⟩ := readLEint64_decomp ha
      obtain ⟨b2, hl2, hr2, he2, hv2⟩ := readLEint64_decomp hb
      refine ⟨b1, b2, hl1, hl2, ?_, ?_, ?_⟩
      · rw [hr1, hr2, h.2]
      · rw [← h.2, he2, he1]
      · rw [← h.1, hv1, hv2]

/-- A successful `readMempoolEntry` consumed the bytes of the transaction and
two groups of eight bytes. -/
theorem readMempoolEntry_decomp {Tx : Type} {D : TxDecoder Tx} {r r1 : Reader}
    {m : MempoolEntry Tx} (h : readMempoolEntry D r = (m, none, r1)) :
    ∃ tx t b1 b2, D r = (none, tx, t.length) ∧ r.rest = t ++ (b1 ++ (b2 ++ r1.rest)) ∧
      b1.length = 8 ∧ b2.length = 8 ∧ r1.err = r.err ∧
      m = ⟨some tx, toInt64 (leUint64 b1), toInt64 (leUint64 b2)⟩ := by
  unfold readMempoolEntry at h
  rcases hd : D r with ⟨e0, tx, n⟩
  rw [hd] at h
  cases e0 with
  | some e => simp at h
  | none =>
    rcases ha : readLEint64 (r.advance n) with ⟨v1, e1, ra⟩
    simp only [ha] at h
    cases e1 with
    | some e => simp at h
    | none =>
      rcases hb : readLEint64 ra with ⟨v2, e2, rb⟩
      simp only [hb] at h
      cases e2 with
      | some e => simp at h
      | none =>
        simp only [Prod.mk.injEq, true_and] at h
        obtain ⟨b1, hl1, hr1, he1, hv1⟩ := readLEint64_decomp ha
        obtain ⟨b2, hl2, hr2, he2, hv2⟩ := readLEint64_decomp hb
        have hn : n ≤ r.rest.length := by
          have := congrArg List.length hr1
          simp only [Reader.advance, List.length_drop, List.length_append] at this
          omega
        have hlen : (r.rest.take n).length = n := by
          simp only [List.length_take]; omega
        refine ⟨tx, r.rest.take n, b1, b2, by rw [hlen], ?_, hl1, hl2, ?_, ?_⟩
        · have hsplit : r.rest = r.rest.take n ++ (r.advance n).rest :=
            (List.take_append_drop n r.rest).symm
          rw [hr1, hr2, h.2] at hsplit
          exact hsplit
        · rw [← h.2, he2, he1]; rfl
        · rw [← h.1, hv1, hv2]

/-- Conversely, `readMempoolEntry` succeeds when the transaction decoder does
and sixteen bytes follow the transaction. -/
theorem readMempoolEntry_compose {Tx : Type} {D : TxDecoder Tx} {r : Reader} {tx : Tx}
    {t b1 b2 s : List Byte} (hd : D r = (none, tx, t.length))
    (hr : r.rest = t ++ (b1 ++ (b2 ++ s))) (h1 : b1.length = 8) (h2 : b2.length = 8) :
    readMempoolEntry D r
      = (⟨some tx, toInt64 (leUint64 b1), toInt64 (leUint64 b2)⟩, none, ⟨s, r.err⟩) := by
  have hadv : r.advance t.length = ⟨b1 ++ (b2 ++ s), r.err⟩ := by
    simp only [Reader.advance, hr, List.drop_left]
  simp only [readMempoolEntry, hd, hadv, readLEint64_append _ _ _ h1,
    readLEint64_append _ _ _ h2]

/-- A self-delimiting decoder gives the same entry whatever follows it. -/
theorem readMempoolEntry_frame {Tx : Type} {D : TxDecoder Tx} (hD : SelfDelimiting D)
    {r r1 : Reader} {m : MempoolEntry Tx} (h : readMempoolEntry D r = (m, none, r1)) :
    ∃ u, r.rest = u ++ r1.rest ∧ r1.err = r.err ∧
      ∀ (s : List Byte) (e2 : GoError), readMempoolEntry D ⟨u ++ s, e2⟩ = (m, none, ⟨s, e2⟩) := by
  obtain ⟨tx, t, b1, b2, hd, hr, h1, h2, he, hm⟩ := readMempoolEntry_decomp h
  refine ⟨t ++ (b1 ++ b2), by rw [hr]; simp only [List.append_assoc], he, ?_⟩
  intro s e2
  have hd2 : D ⟨(t ++ (b1 ++ b2)) ++ s, e2⟩ = (none, tx, t.length) := by
    apply hD r tx t.length hd (by rw [hr]; simp only [List.length_append]; omega)
    · simp only [List.append_assoc, hr, List.take_left]
    · simp only [List.length_append]; omega
  rw [hm]
  exact readMempoolEntry_compose hd2 (by simp only [List.append_assoc]) h1 h2

/-- A self-delimiting decoder makes the loop independent of what follows the
entries it reads. -/
theorem readEntries_frame {Tx : Type} {D : TxDecoder Tx} (hD : SelfDelimiting D) (k : Nat) :
    ∀ (i : Int) (r : Reader) (es es1 : List (MempoolEntry Tx)) (c c1 : Nat) (r1 : Reader),
      readEntries D k i r es c = (none, es1, r1, c1) →
        ∃ u, r.rest = u ++ r1.rest ∧ r1.err = r.err ∧
          ∀ (s : List Byte) (e2 : GoError),
            readEntries D k i ⟨u ++ s, e2⟩ es c = (none, es1, ⟨s, e2⟩, c1) := by
  induction k with
  | zero =>
    intro i r es es1 c c1 r1 h
    simp only [readEntries, Prod.mk.injEq, true_and] at h
    obtain ⟨h1, h2, h3⟩ := h
    subst h1; subst h2; subst h3
    exact ⟨[], rfl, rfl, fun s e2 => rfl⟩
  | succ k ih =>
    intro i r es es1 c c1 r1 h
    rw [readEntries_succ] at h
    rcases hm : readMempoolEntry D r with ⟨m, e, r2⟩
    rw [hm] at h
    cases e with
    | some e => simp at h
    | none =>
      simp only at h
      obtain ⟨u1, hu1, he1, hf1⟩ := readMempoolEntry_frame hD hm
      obtain ⟨u2, hu2, he2, hf2⟩ := ih _ _ _ _ _ _ _ h
      refine ⟨u1 ++ u2, by rw [hu1, hu2, List.append_assoc], by rw [he2, he1], ?_⟩
      intro s e2
      rw [readEntries_succ, List.append_assoc, hf1 (u2 ++ s) e2]
      exact hf2 s e2

/-! ## Readers only advance -/

theorem advance_advance (r : Reader) (a b : Nat) :
    (r.advance a).advance b = r.advance (a + b) := by
  simp only [Reader.advance, List.drop_drop, Nat.add_comm]

theorem readLEint64_advance (r : Reader) : ∃ n, (readLEint64 r).2.2 = r.advance n := by
  by_cases h : 8 ≤ r.rest.length
  · exact ⟨8, by rw [readLEint64_ok r h]⟩
  · exact ⟨r.rest.length, by rw [readLEint64_short r (by omega)]⟩

theorem readMempoolEntry_advance {Tx : Type} (D : TxDecoder Tx) (r : Reader) :
    ∃ n, (readMempoolEntry D r).2.2 = r.advance n := by
  rcases hd : D r with ⟨e0, tx, n⟩
  cases e0 with
  | some e => exact ⟨n, by simp only [readMempoolEntry, hd]⟩
  | none =>
    obtain ⟨a, ha⟩ := readLEint64_advance (r.advance n)
    rcases h1 : readLEint64 (r.advance n) with ⟨v1, e1, r1⟩
    rw [h1] at ha
    simp only at ha
    cases e1 with
    | some e => exact ⟨n + a, by simp only [readMempoolEntry, hd, h1, ha, advance_advance]⟩
    | none =>
      obtain ⟨b, hb⟩ := readLEint64_advance r1
      rcases h2 : readLEint64 r1 with ⟨v2, e2, r2⟩
      rw [h2] at hb
      simp only at hb
      cases e2 with
      | some e =>
        exact ⟨n + a + b, by
          simp only [readMempoolEntry, hd, h1, h2]
          rw [hb, ha, advance_advance, advance_advance, Nat.add_assoc]⟩
      | none =>
        exact ⟨n + a + b, by
          simp only [readMempoolEntry, hd, h1, h2]
          rw [hb, ha, advance_advance, advance_advance, Nat.add_assoc]⟩

theorem entryStart_advance {Tx : Type} (D : TxDecoder Tx) (i : Nat) (r : Reader) :
    ∃ n, entryStart D i r = r.advance n := by
  induction i with
  | zero => exact ⟨0, by simp [entryStart, Reader.advance]⟩
  | succ i ih =>
    obtain ⟨a, ha⟩ := ih
    obtain ⟨b, hb⟩ := readMempoolEntry_advance D (entryStart D i r)
    exact ⟨a + b, by
      show (readMempoolEntry D (entryStart D i r)).2.2 = _
      rw [hb, ha, advance_advance]⟩

theorem entryStart_err {Tx : Type} (D : TxDecoder Tx) (i : Nat) (r : Reader) :
    (entryStart D i r).err = r.err := by
  obtain ⟨n, hn⟩ := entryStart_advance D i r
  rw [hn]
  rfl

/-- The decoder `lenPrefixed` is self-delimiting. -/
theorem lenPrefixed_selfDelimiting : SelfDelimiting lenPrefixed := by
  intro r tx n h hn r2 htake hn2
  rcases r with ⟨rest, e⟩
  rcases r2 with ⟨rest2, e2⟩
  cases rest with
  | nil => simp [lenPrefixed] at h
  | cons a bs =>
    simp only [lenPrefixed] at h
    by_cases hle : a.val ≤ bs.length
    · simp only [hle, if_true, Prod.mk.injEq, true_and] at h
      obtain ⟨htx, hnn⟩ := h
      subst hnn
      cases rest2 with
      | nil => simp at hn2
      | cons a2 bs2 =>
        simp only [List.take_succ_cons, List.cons.injEq] at htake
        obtain ⟨ha, hb⟩ := htake
        subst ha
        simp only [List.length_cons] at hn2
        have hle2 : a2.val ≤ bs2.length := by omega
        simp only [lenPrefixed, hle2, if_true, hb, htx]
    · simp [hle] at h

theorem mempool_eq_of_fields {Tx : Type} {mem : Mempool Tx} {es : Slice (MempoolEntry Tx)}
    {md : Slice Byte} (h1 : mem.entries = es) (h2 : mem.mapDeltas = md) :
    mem = ⟨mem.header, es, md⟩ := by
  cases mem
  simp only at h1 h2
  subst h1
  subst h2
  rfl

/-- C7: with a self-delimiting transaction decoder and the flag not set, a
successful run stops at the end of the last declared entry, and the bytes (or
the read error) that follow it have no influence: replacing them by any other
bytes gives the same `Mempool`, with an absent trailing field, and leaves
exactly those bytes unread. -/
theorem no_read_past_last_entry {Tx : Type} (maxLen : Nat) (D : TxDecoder Tx) (hD : SelfDelimiting D)
    (data : List Byte) (err : GoError) (mem : Mempool Tx) (r2 : Reader) (c : Nat)
    (hdec : decodeReader maxLen D ⟨data, err⟩ false = ⟨.ret mem none, r2, c⟩) :
    mem.mapDeltas = none ∧
      r2 = entryStart D mem.header.numTx.toNat ((Reader.mk data err).advance 16) ∧
      ∃ used, data = used ++ r2.rest ∧
        ∀ (extra : List Byte) (err2 : GoError),
          decodeReader maxLen D ⟨used ++ extra, err2⟩ false = ⟨.ret mem none, ⟨extra, err2⟩, c⟩ ∧
          ∀ (osOpen : String → Except GoError File) (path : String),
            osOpen path = .ok ⟨used ++ extra, err2⟩ →
              ReadMempoolFromPath maxLen osOpen D path false = .ret mem none := by
  have hout : (decodeReader maxLen D ⟨data, err⟩ false).outcome = .ret mem none := by rw [hdec]
  obtain ⟨r1, es, r2a, ca, h1, hn, hloop, hes, hfalse, -⟩ := decodeReader_success hout
  obtain ⟨hmd, hrun⟩ := hfalse rfl
  rw [hdec] at hrun
  have hr2 : r2a = r2 := (congrArg Run.reader hrun).symm
  have hc : ca = c := (congrArg Run.txCalls hrun).symm
  subst hr2
  subst hc
  obtain ⟨-, hr1, -⟩ := readFileHeader_none h1
  obtain ⟨hstart, -, -⟩ := readEntries_spec D _ 0 r1 _ es 0 ca r2a hloop
    (by simp only [List.length_replicate]; omega)
  obtain ⟨b1, b2, hl1, hl2, hdata, -, hhd⟩ := readFileHeader_decomp h1
  obtain ⟨u, hu, -, hframe⟩ := readEntries_frame hD _ _ _ _ _ _ _ _ hloop
  have hmem := mempool_eq_of_fields hes hmd
  refine ⟨hmd, by rw [hstart, hr1], b1 ++ (b2 ++ u), ?_, ?_⟩
  · simp only at hdata
    rw [hdata, hu]
    simp only [List.append_assoc]
  · intro extra err2
    have hh : readFileHeader ⟨(b1 ++ (b2 ++ u)) ++ extra, err2⟩
        = (mem.header, none, ⟨u ++ extra, err2⟩) := by
      rw [hhd]
      simp only [List.append_assoc]
      exact readFileHeader_append b1 b2 (u ++ extra) err2 hl1 hl2
    obtain ⟨hf, -⟩ := decodeReader_of_entries hh hn (decodeReader_entries_max hout hes)
      (hframe extra err2)
    rw [← hmem] at hf
    refine ⟨hf, ?_⟩
    intro osOpen path hopen
    unfold ReadMempoolFromPath
    rw [hopen]
    show (decodeReader maxLen D ⟨(b1 ++ (b2 ++ u)) ++ extra, err2⟩ false).outcome = _
    rw [hf]

theorem no_read_past_last_entry_witness :
    decodeReader smallLimit lenPrefixed ⟨sampleBytes, .EOF⟩ false
        = ⟨.ret ⟨⟨1, 2⟩, some [⟨some [2, 7, 9], 5, 6⟩, ⟨some [0], 3, -1⟩], none⟩ none,
            ⟨[42, 43], .EOF⟩, 2⟩ ∧
      ((Mempool.mk ⟨1, 2⟩ (some [⟨some [2, 7, 9], 5, 6⟩, ⟨some [0], 3, -1⟩]) none
          : Mempool (List Byte)).mapDeltas = none ∧
        (⟨[42, 43], .EOF⟩ : Reader) = entryStart lenPrefixed
          (Mempool.mk ⟨1, 2⟩ (some [⟨some [2, 7, 9], 5, 6⟩, ⟨some [0], 3, -1⟩]) none
            : Mempool (List Byte)).header.numTx.toNat ((Reader.mk sampleBytes .EOF).advance 16) ∧
        ∃ used, sampleBytes = used ++ (⟨[42, 43], .EOF⟩ : Reader).rest ∧
          ∀ (extra : List Byte) (err2 : GoError),
            decodeReader smallLimit lenPrefixed ⟨used ++ extra, err2⟩ false
              = ⟨.ret ⟨⟨1, 2⟩, some [⟨some [2, 7, 9], 5, 6⟩, ⟨some [0], 3, -1⟩], none⟩ none,
                  ⟨extra, err2⟩, 2⟩ ∧
            ∀ (osOpen : String → Except GoError File) (path : String),
              osOpen path = .ok ⟨used ++ extra, err2⟩ →
                ReadMempoolFromPath smallLimit osOpen lenPrefixed path false
                  = .ret ⟨⟨1, 2⟩, some [⟨some [2, 7, 9], 5, 6⟩, ⟨some [0], 3, -1⟩], none⟩ none) :=
  ⟨by rfl, no_read_past_last_entry smallLimit lenPrefixed lenPrefixed_selfDelimiting sampleBytes .EOF
    _ _ _ (by rfl)⟩

/-- C8: for every regular file whose header and declared entries decode (the
run without the flag succeeds and stops in reader state `r2`, the end of the
last declared entry), the call with the flag set succeeds, with the same
header and entries, and the bytes of its trailing slice are exactly the bytes
of the file after that position, in order; the end of the file is not an
error. -/
theorem trailing_bytes_captured {Tx : Type} (maxLen : Nat) (osOpen : String → Except GoError File)
    (D : TxDecoder Tx) (path : String) (data : List Byte) (mem : Mempool Tx) (r2 : Reader)
    (c : Nat) (hopen : osOpen path = .ok ⟨data, .EOF⟩)
    (hdec : decodeReader maxLen D ⟨data, .EOF⟩ false = ⟨.ret mem none, r2, c⟩) :
    r2 = entryStart D mem.header.numTx.toNat ((Reader.mk data .EOF).advance 16) ∧
      ∃ md, ReadMempoolFromPath maxLen osOpen D path true = .ret ⟨mem.header, mem.entries, md⟩ none ∧
        Slice.elems md = r2.rest ∧
        data = data.take (data.length - (Slice.elems md).length) ++ Slice.elems md := by
  have hout : (decodeReader maxLen D ⟨data, .EOF⟩ false).outcome = .ret mem none := by rw [hdec]
  obtain ⟨r1, es, r2a, ca, h1, hn, hloop, hes, hfalse, -⟩ := decodeReader_success hout
  obtain ⟨-, hrun⟩ := hfalse rfl
  rw [hdec] at hrun
  have hr2 : r2a = r2 := (congrArg Run.reader hrun).symm
  subst hr2
  obtain ⟨-, hr1, -⟩ := readFileHeader_none h1
  obtain ⟨hstart, -, -⟩ := readEntries_spec D _ 0 r1 _ es 0 ca r2a hloop
    (by simp only [List.length_replicate]; omega)
  obtain ⟨-, ht⟩ := decodeReader_of_entries h1 hn (decodeReader_entries_max hout hes) hloop
  have herr : r2a.err = .EOF := by
    rw [hstart, hr1]
    exact entryStart_err D _ _
  obtain ⟨n, hnr⟩ : ∃ n, r2a.rest = data.drop n := by
    rw [hstart, hr1]
    obtain ⟨n, hn⟩ := entryStart_advance D mem.header.numTx.toNat ((Reader.mk data .EOF).advance 16)
    exact ⟨16 + n, by rw [hn]; simp [Reader.advance]⟩
  rw [readRemaining_eq, herr] at ht
  simp only [if_true] at ht
  generalize hmd : (match r2a.rest with
    | [] => (none : Slice Byte)
    | _ :: _ => some (Slice.elems none ++ r2a.rest)) = md at ht
  have hel : Slice.elems md = r2a.rest := by
    rw [← hmd]
    cases hrest : r2a.rest <;> simp [Slice.elems]
  refine ⟨by rw [hstart, hr1], md, ?_, hel, ?_⟩
  · unfold ReadMempoolFromPath
    rw [hopen]
    show (decodeReader maxLen D ⟨data, .EOF⟩ true).outcome = _
    rw [ht, hes]
  · rw [hel, hnr]
    by_cases hlen : n ≤ data.length
    · have : data.length - (data.drop n).length = n := by
        simp only [List.length_drop]; omega
      rw [this, List.take_append_drop]
    · have hd : data.drop n = [] := List.drop_eq_nil_of_le (by omega)
      simp [hd]

theorem trailing_bytes_captured_witness :
    (oneFile sampleBytes "mempool.dat" = .ok ⟨sampleBytes, .EOF⟩ ∧
      decodeReader smallLimit lenPrefixed ⟨sampleBytes, .EOF⟩ false
        = ⟨.ret ⟨⟨1, 2⟩, some [⟨some [2, 7, 9], 5, 6⟩, ⟨some [0], 3, -1⟩], none⟩ none,
            ⟨[42, 43], .EOF⟩, 2⟩) ∧
    ((⟨[42, 43], .EOF⟩ : Reader) = entryStart lenPrefixed
        (Mempool.mk ⟨1, 2⟩ (some [⟨some [2, 7, 9], 5, 6⟩, ⟨some [0], 3, -1⟩]) none
          : Mempool (List Byte)).header.numTx.toNat ((Reader.mk sampleBytes .EOF).advance 16) ∧
      ∃ md, ReadMempoolFromPath smallLimit (oneFile sampleBytes) lenPrefixed "mempool.dat" true
          = .ret ⟨⟨1, 2⟩, some [⟨some [2, 7, 9], 5, 6⟩, ⟨some [0], 3, -1⟩], md⟩ none ∧
        Slice.elems md = [42, 43] ∧
        sampleBytes = sampleBytes.take (sampleBytes.length - (Slice.elems md).length)
          ++ Slice.elems md) :=
  ⟨⟨rfl, by rfl⟩, trailing_bytes_captured smallLimit (oneFile sampleBytes) lenPrefixed "mempool.dat"
    sampleBytes _ _ _ rfl (by rfl)⟩

/-! ## Little-endian encoding -/

theorem toUint64_toInt64 (u : Nat) (h : u < 2 ^ 64) : toUint64 (toInt64 u) = u := by
  unfold toUint64 toInt64
  have h1 : u % 2 ^ 64 = u := Nat.mod_eq_of_lt h
  rw [h1]
  norm_num at h ⊢
  split <;> omega

theorem putLEint64_readLE (b : List Byte) (hb : b.length = 8) :
    putLEint64 (toInt64 (leUint64 b)) = b := by
  match b, hb with
  | [x0, x1, x2, x3, x4, x5, x6, x7], _ =>
    have hlt : leUint64 [x0, x1, x2, x3, x4, x5, x6, x7] < 2 ^ 64 := by
      simp only [leUint64, List.take, List.foldr]
      have := x0.isLt; have := x1.isLt; have := x2.isLt; have := x3.isLt
      have := x4.isLt; have := x5.isLt; have := x6.isLt; have := x7.isLt
      omega
    unfold putLEint64
    rw [toUint64_toInt64 _ hlt]
    simp only [leUint64, List.take, List.foldr, List.range, List.range.loop, List.map]
    have := x0.isLt; have := x1.isLt; have := x2.isLt; have := x3.isLt
    have := x4.isLt; have := x5.isLt; have := x6.isLt; have := x7.isLt
    simp only [List.cons.injEq, and_true]
    refine ⟨?_, ?_, ?_, ?_, ?_, ?_, ?_, ?_⟩ <;>
      (apply Fin.ext; simp only [Fin.ofNat, Fin.val_mk]; omega)

/-- With an encoder that gives back the bytes the decoder consumed, a decoded
entry encodes to the bytes that `readMempoolEntry` consumed. -/
theorem readMempoolEntry_encode {Tx : Type} {D : TxDecoder Tx} {encodeTx : Tx → List Byte}
    (henc : ∀ (r : Reader) (tx : Tx) (n : Nat), D r = (none, tx, n) → n ≤ r.rest.length →
      encodeTx tx = r.rest.take n)
    {r r1 : Reader} {m : MempoolEntry Tx} (h : readMempoolEntry D r = (m, none, r1)) :
    r.rest = encodeEntry encodeTx m ++ r1.rest := by
  obtain ⟨tx, t, b1, b2, hd, hr, h1, h2, -, hm⟩ := readMempoolEntry_decomp h
  have ht : encodeTx tx = t := by
    rw [henc r tx t.length hd (by rw [hr]; simp only [List.length_append]; omega), hr]
    exact List.take_left t _
  rw [hm]
  simp only [encodeEntry, ht, putLEint64_readLE b1 h1, putLEint64_readLE b2 h2,
    List.append_assoc]
  exact hr

theorem entries_encode {Tx : Type} {D : TxDecoder Tx} {encodeTx : Tx → List Byte}
    (henc : ∀ (r : Reader) (tx : Tx) (n : Nat), D r = (none, tx, n) → n ≤ r.rest.length →
      encodeTx tx = r.rest.take n)
    (r : Reader) (es : List (MempoolEntry Tx)) (n : Nat)
    (hes : ∀ j, j < n → ∃ e, readMempoolEntry D (entryStart D j r)
      = (e, none, entryStart D (j + 1) r) ∧ es[j]? = some e) :
    ∀ k, k ≤ n →
      r.rest = (es.take k).flatMap (encodeEntry encodeTx) ++ (entryStart D k r).rest := by
  intro k
  induction k with
  | zero => intro _; simp [entryStart]
  | succ k ih =>
    intro hk
    obtain ⟨e, he1, he2⟩ := hes k (by omega)
    rw [List.take_succ, he2, List.flatMap_append, List.append_assoc]
    have hstep := readMempoolEntry_encode henc he1
    simp only [Option.toList, List.flatMap_cons, List.flatMap_nil, List.append_nil]
    rw [← hstep]
    exact ih (by omega)

/-- The decoder `lenPrefixed` returns as transaction the bytes it consumed. -/
theorem lenPrefixed_bytes (r : Reader) (tx : List Byte) (n : Nat)
    (h : lenPrefixed r = (none, tx, n)) (_hn : n ≤ r.rest.length) : id tx = r.rest.take n := by
  rcases r with ⟨rest, e⟩
  cases rest with
  | nil => simp [lenPrefixed] at h
  | cons a bs =>
    simp only [lenPrefixed] at h
    by_cases hle : a.val ≤ bs.length
    · simp only [hle, if_true, Prod.mk.injEq, true_and] at h
      obtain ⟨htx, hnn⟩ := h
      subst hnn
      subst htx
      simp only [id, List.take_succ_cons]
    · simp [hle] at h

/-- C9: with a transaction encoder that gives back exactly the bytes the
decoder consumed, the bytes of a `Mempool` decoded with the flag set (the two
header integers, then each entry as its transaction bytes, timestamp and fee
delta, then the trailing bytes, all integers as 8 little-endian bytes) are the
content of the file, byte for byte. -/
theorem encode_decode_roundtrip {Tx : Type} (maxLen : Nat) (osOpen : String → Except GoError File)
    (D : TxDecoder Tx) (encodeTx : Tx → List Byte) (path : String) (file : File)
    (mem : Mempool Tx)
    (henc : ∀ (r : Reader) (tx : Tx) (n : Nat), D r = (none, tx, n) → n ≤ r.rest.length →
      encodeTx tx = r.rest.take n)
    (hopen : osOpen path = .ok file)
    (h : ReadMempoolFromPath maxLen osOpen D path true = .ret mem none) :
    encodeMempool encodeTx mem = file.content := by
  unfold ReadMempoolFromPath at h
  rw [hopen] at h
  obtain ⟨r1, es, r2, c, h1, hn, hloop, hes, -, htrue⟩ := decodeReader_success h
  obtain ⟨hrem, -⟩ := htrue rfl
  obtain ⟨b1, b2, hl1, hl2, hdata, -, hhd⟩ := readFileHeader_decomp h1
  have hl := readEntries_length D mem.header.numTx.toNat 0 r1
    (List.replicate mem.header.numTx.toNat MempoolEntry.zero) 0
  rw [hloop] at hl
  simp only [List.length_replicate] at hl
  obtain ⟨hstart, hb, -⟩ := readEntries_spec D _ 0 r1 _ es 0 c r2 hloop
    (by simp only [List.length_replicate]; omega)
  have hb2 : ∀ j, j < es.length → ∃ e, readMempoolEntry D (entryStart D j r1)
      = (e, none, entryStart D (j + 1) r1) ∧ es[j]? = some e := by
    intro j hj
    obtain ⟨e, he1, he2⟩ := hb j (by omega)
    exact ⟨e, he1, by rw [← he2, Nat.zero_add]⟩
  have hentries := entries_encode henc r1 es es.length hb2 es.length (le_refl _)
  rw [List.take_length, hl, ← hstart] at hentries
  have hmd : Slice.elems mem.mapDeltas = r2.rest := by
    rw [readRemaining_eq] at hrem
    simp only [Prod.mk.injEq] at hrem
    rw [← hrem.1]
    cases hrest : r2.rest <;> simp [Slice.elems]
  have hv : putLEint64 mem.header.version = b1 := by
    rw [hhd]; exact putLEint64_readLE b1 hl1
  have hc : putLEint64 mem.header.numTx = b2 := by
    rw [hhd]; exact putLEint64_readLE b2 hl2
  unfold encodeMempool
  rw [hv, hc, hes, hmd]
  simp only [Slice.elems, NewReader] at hdata ⊢
  rw [hdata, hentries]
  simp only [List.append_assoc]

theorem encode_decode_roundtrip_witness :
    (oneFile sampleBytes "mempool.dat" = .ok ⟨sampleBytes, .EOF⟩ ∧
      ReadMempoolFromPath smallLimit (oneFile sampleBytes) lenPrefixed "mempool.dat" true
        = .ret ⟨⟨1, 2⟩, some [⟨some [2, 7, 9], 5, 6⟩, ⟨some [0], 3, -1⟩], some [42, 43]⟩
            none) ∧
    encodeMempool id (Mempool.mk ⟨1, 2⟩ (some [⟨some [2, 7, 9], 5, 6⟩, ⟨some [0], 3, -1⟩])
      (some [42, 43]) : Mempool (List Byte)) = (File.mk sampleBytes .EOF).content :=
  ⟨⟨rfl, by rfl⟩, encode_decode_roundtrip smallLimit (oneFile sampleBytes) lenPrefixed id "mempool.dat"
    ⟨sampleBytes, .EOF⟩ _ lenPrefixed_bytes rfl (by rfl)⟩


/-! ## Truncated files -/

/-- On a regular file `readLEint64` fails with `io.ErrUnexpectedEOF` when one
to seven bytes are left. -/
theorem readLEint64_cut (w : List Byte) (h1 : 1 ≤ w.length) (h7 : w.length ≤ 7) :
    (readLEint64 ⟨w, .EOF⟩).2.1 = some .ErrUnexpectedEOF := by
  rw [readLEint64_short _ (by show w.length < 8; omega)]
  have : 0 < w.length := by omega
  simp [this]

/-- An entry whose timestamp or fee delta is cut after one to seven bytes does
not decode: the failing read reports `io.ErrUnexpectedEOF`. -/
theorem readMempoolEntry_cut {Tx : Type} {D : TxDecoder Tx} (hD : SelfDelimiting D)
    {r : Reader} {tx : Tx} {t b1 b2 s : List Byte} (hd : D r = (none, tx, t.length))
    (hr : r.rest = t ++ (b1 ++ (b2 ++ s))) (h1 : b1.length = 8) (h2 : b2.length = 8)
    (c : Nat) (hc1 : 1 ≤ c) (hc7 : c ≤ 7) :
    (readMempoolEntry D ⟨t ++ (b1 ++ (b2 ++ s)).take c, .EOF⟩).2.1 = some .ErrUnexpectedEOF ∧
    (readMempoolEntry D ⟨t ++ (b1 ++ (b2 ++ s)).take (8 + c), .EOF⟩).2.1
      = some .ErrUnexpectedEOF := by
  have hdw : ∀ w : List Byte, D ⟨t ++ w, .EOF⟩ = (none, tx, t.length) := by
    intro w
    apply hD r tx t.length hd (by rw [hr]; simp only [List.length_append]; omega)
    · simp only [hr, List.take_left]
    · simp only [List.length_append]; omega
  have hadv : ∀ w : List Byte, (Reader.mk (t ++ w) .EOF).advance t.length = ⟨w, .EOF⟩ := by
    intro w
    simp only [Reader.advance, List.drop_left]
  constructor
  · have hw : ((b1 ++ (b2 ++ s)).take c).length = c := by
      simp only [List.length_take, List.length_append]; omega
    have hcut := readLEint64_cut ((b1 ++ (b2 ++ s)).take c) (by omega) (by omega)
    rcases hx : readLEint64 ⟨(b1 ++ (b2 ++ s)).take c, .EOF⟩ with ⟨v, e, rx⟩
    rw [hx] at hcut
    simp only at hcut
    subst hcut
    simp only [readMempoolEntry, hdw, hadv, hx]
  · have hsplit : (b1 ++ (b2 ++ s)).take (8 + c) = b1 ++ (b2 ++ s).take c := by
      rw [← h1]; exact List.take_append c
    have hw : ((b2 ++ s).take c).length = c := by
      simp only [List.length_take, List.length_append]; omega
    have hcut := readLEint64_cut ((b2 ++ s).take c) (by omega) (by omega)
    rcases hx : readLEint64 ⟨(b2 ++ s).take c, .EOF⟩ with ⟨v, e, rx⟩
    rw [hx] at hcut
    simp only at hcut
    subst hcut
    simp only [readMempoolEntry, hdw, hadv, hsplit, readLEint64_append _ _ _ h1, hx]

/-- The bytes of a successfully decoded file around entry `i`: the bytes
before its transaction, the transaction, the timestamp, the fee delta and the
rest; cutting the file inside the entry so that it does not decode makes the
run fail at index `i`. -/
theorem success_entry_decomp {Tx : Type} {maxLen : Nat} {D : TxDecoder Tx} (hD : SelfDelimiting D)
    {data : List Byte} {rd0 : Bool} {mem : Mempool Tx}
    (h : (decodeReader maxLen D ⟨data, .EOF⟩ rd0).outcome = .ret mem none) (i : Nat)
    (hi : (i : Int) < mem.header.numTx) :
    ∃ p tx t b1 b2 s, data = p ++ (t ++ (b1 ++ (b2 ++ s))) ∧
      16 + timestampPos D ((Reader.mk data .EOF).advance 16) i = p.length + t.length ∧
      b1.length = 8 ∧ b2.length = 8 ∧
      D ⟨t ++ (b1 ++ (b2 ++ s)), .EOF⟩ = (none, tx, t.length) ∧
      ∀ (w : List Byte) (rd : Bool) (e : GoError),
        (readMempoolEntry D ⟨t ++ w, .EOF⟩).2.1 = some e →
          (decodeReader maxLen D ⟨p ++ (t ++ w), .EOF⟩ rd).outcome
            = .ret ⟨mem.header, none, none⟩ (some (.wrapError (.entry i) e)) := by
  obtain ⟨r1, es, r2, c, h1, hn, hloop, hes, -, -⟩ := decodeReader_success h
  have hmax := decodeReader_entries_max h hes
  obtain ⟨-, hr1, -⟩ := readFileHeader_none h1
  obtain ⟨a1, a2, hl1, hl2, hdata, herr1, hhd⟩ := readFileHeader_decomp h1
  simp only at hdata herr1
  obtain ⟨j, hj⟩ : ∃ j, mem.header.numTx.toNat = i + (j + 1) :=
    ⟨mem.header.numTx.toNat - i - 1, by omega⟩
  have hloop2 := hloop
  rw [hj, readEntries_split, ← hj] at hloop2
  rcases hfi : readEntries D i 0 r1
      (List.replicate mem.header.numTx.toNat MempoolEntry.zero) 0 with ⟨e0, esi, ri, ci⟩
  rw [hfi] at hloop2
  cases e0 with
  | some e => simp at hloop2
  | none =>
    simp only [readEntries_succ] at hloop2
    rcases hm : readMempoolEntry D ri with ⟨m, e1, ri1⟩
    rw [hm] at hloop2
    cases e1 with
    | some e => simp at hloop2
    | none =>
      obtain ⟨hstart, -, -⟩ := readEntries_spec D i 0 r1 _ esi 0 ci ri hfi
        (by simp only [List.length_replicate]; omega)
      obtain ⟨u, hu, heri, hframe⟩ := readEntries_frame hD _ _ _ _ _ _ _ _ hfi
      obtain ⟨tx, t, b1, b2, hd, hri, hb1, hb2, -, -⟩ := readMempoolEntry_decomp hm
      have hriEOF : ri.err = .EOF := by rw [heri, herr1]
      have hrieq : ri = ⟨t ++ (b1 ++ (b2 ++ ri1.rest)), .EOF⟩ := by
        rcases ri with ⟨rr, re⟩
        simp only at hri hriEOF
        rw [hri, hriEOF]
      refine ⟨a1 ++ (a2 ++ u), tx, t, b1, b2, ri1.rest, ?_, ?_, hb1, hb2, ?_, ?_⟩
      · rw [hdata, hu, hri]
        simp only [List.append_assoc]
      · unfold timestampPos
        rw [← hr1, ← hstart, hd, hu]
        simp only [List.length_append]
        omega
      · rw [← hrieq]; exact hd
      · intro w rd e he
        have hh : readFileHeader ⟨(a1 ++ (a2 ++ u)) ++ (t ++ w), .EOF⟩
            = (mem.header, none, ⟨u ++ (t ++ w), .EOF⟩) := by
          rw [hhd]
          simp only [List.append_assoc]
          exact readFileHeader_append a1 a2 _ .EOF hl1 hl2
        rcases hx : readMempoolEntry D ⟨t ++ w, .EOF⟩ with ⟨mx, ex, rx⟩
        rw [hx] at he
        simp only at he
        subst he
        have hl : readEntries D mem.header.numTx.toNat 0 ⟨u ++ (t ++ w), .EOF⟩
            (List.replicate mem.header.numTx.toNat MempoolEntry.zero) 0
            = (some (.wrapError (.entry i) e), esi, rx, ci + 1) := by
          rw [hj, readEntries_split, ← hj, hframe (t ++ w) .EOF]
          simp only [readEntries_succ, hx, zero_add]
        rw [decodeReader_entry_error rd hh hn hmax hl]

/-- C10: take a file that decodes successfully, with a self-delimiting
transaction decoder.  Cutting it 1 to 7 bytes into the format version or the
entry count makes the call fail with the header error, and cutting it 1 to 7
bytes into the timestamp or the fee delta of entry `i` makes it fail with the
entry error for index `i`, in each case for either value of the flag and with
`io.ErrUnexpectedEOF` as cause; each cut is a proper part of the file. -/
theorem truncated_field_fails {Tx : Type} (maxLen : Nat) (D : TxDecoder Tx) (hD : SelfDelimiting D)
    (data : List Byte) (path : String) (rd0 : Bool) (mem : Mempool Tx)
    (h : ReadMempoolFromPath maxLen (oneFile data) D path rd0 = .ret mem none)
    (c : Nat) (hc1 : 1 ≤ c) (hc7 : c ≤ 7) (rd : Bool) :
    (8 + c < data.length ∧
      ReadMempoolFromPath maxLen (oneFile (data.take c)) D path rd
        = .ret Mempool.zero (some (.wrapError .header .ErrUnexpectedEOF)) ∧
      ReadMempoolFromPath maxLen (oneFile (data.take (8 + c))) D path rd
        = .ret Mempool.zero (some (.wrapError .header .ErrUnexpectedEOF))) ∧
    ∀ i : Nat, (i : Int) < mem.header.numTx →
      16 + timestampPos D ((Reader.mk data .EOF).advance 16) i + 8 + c < data.length ∧
      ReadMempoolFromPath maxLen
          (oneFile (data.take (16 + timestampPos D ((Reader.mk data .EOF).advance 16) i + c)))
          D path rd
        = .ret ⟨mem.header, none, none⟩ (some (.wrapError (.entry i) .ErrUnexpectedEOF)) ∧
      ReadMempoolFromPath maxLen
          (oneFile (data.take
            (16 + timestampPos D ((Reader.mk data .EOF).advance 16) i + 8 + c)))
          D path rd
        = .ret ⟨mem.header, none, none⟩ (some (.wrapError (.entry i) .ErrUnexpectedEOF)) := by
  have hout : (decodeReader maxLen D ⟨data, .EOF⟩ rd0).outcome = .ret mem none := h
  constructor
  · obtain ⟨r1, es, r2, c0, h1, -, -, -, -, -⟩ := decodeReader_success hout
    obtain ⟨a1, a2, hl1, hl2, hdata, -, -⟩ := readFileHeader_decomp h1
    simp only at hdata
    refine ⟨by rw [hdata]; simp only [List.length_append]; omega, ?_, ?_⟩
    · show (decodeReader maxLen D ⟨data.take c, .EOF⟩ rd).outcome = _
      have hlen : (data.take c).length = c := by
        rw [hdata]; simp only [List.length_take, List.length_append]; omega
      have hrd : readFileHeader ⟨data.take c, .EOF⟩
          = (FileHeader.zero, some .ErrUnexpectedEOF, ⟨[], .EOF⟩) := by
        have hs := readLEint64_short ⟨data.take c, .EOF⟩ (by show (data.take c).length < 8; omega)
        have hpos : 0 < (data.take c).length := by omega
        simp only [hpos, true_and, if_true] at hs
        simp only [readFileHeader, hs, Reader.advance, List.drop_length]
      rw [decodeReader_header_error D rd hrd]
    · show (decodeReader maxLen D ⟨data.take (8 + c), .EOF⟩ rd).outcome = _
      have hsplit : data.take (8 + c) = a1 ++ (a2 ++ r1.rest).take c := by
        rw [hdata, ← hl1]; exact List.take_append c
      have hlen : ((a2 ++ r1.rest).take c).length = c := by
        simp only [List.length_take, List.length_append]; omega
      have hrd : readFileHeader ⟨data.take (8 + c), .EOF⟩
          = (FileHeader.zero, some .ErrUnexpectedEOF, ⟨[], .EOF⟩) := by
        have hs := readLEint64_short ⟨(a2 ++ r1.rest).take c, .EOF⟩
          (by show ((a2 ++ r1.rest).take c).length < 8; omega)
        have hpos : 0 < ((a2 ++ r1.rest).take c).length := by omega
        simp only [hpos, true_and, if_true] at hs
        simp only [readFileHeader, hsplit, readLEint64_append _ _ _ hl1, hs, Reader.advance,
          List.drop_length]
      rw [decodeReader_header_error D rd hrd]
  · intro i hi
    obtain ⟨p, tx, t, b1, b2, s, hdata, hpos, hb1, hb2, hd, hfail⟩ :=
      success_entry_decomp hD hout i hi
    obtain ⟨hcut1, hcut2⟩ := readMempoolEntry_cut hD hd rfl hb1 hb2 c hc1 hc7
    have ht1 : data.take (16 + timestampPos D ((Reader.mk data .EOF).advance 16) i + c)
        = p ++ (t ++ (b1 ++ (b2 ++ s)).take c) := by
      rw [hpos, hdata, Nat.add_assoc, List.take_append, List.take_append]
    have ht2 : data.take (16 + timestampPos D ((Reader.mk data .EOF).advance 16) i + 8 + c)
        = p ++ (t ++ (b1 ++ (b2 ++ s)).take (8 + c)) := by
      rw [hpos, hdata, Nat.add_assoc, Nat.add_assoc, List.take_append, List.take_append]
    refine ⟨?_, ?_, ?_⟩
    · rw [hpos, hdata]
      simp only [List.length_append]
      omega
    · show (decodeReader maxLen D ⟨_, .EOF⟩ rd).outcome = _
      rw [ht1]
      exact hfail _ rd _ hcut1
    · show (decodeReader maxLen D ⟨_, .EOF⟩ rd).outcome = _
      rw [ht2]
      exact hfail _ rd _ hcut2


theorem truncated_field_fails_witness :
    (ReadMempoolFromPath smallLimit (oneFile sampleBytes) lenPrefixed "mempool.dat" false
        = .ret ⟨⟨1, 2⟩, some [⟨some [2, 7, 9], 5, 6⟩, ⟨some [0], 3, -1⟩], none⟩ none ∧
      timestampPos lenPrefixed ((Reader.mk sampleBytes .EOF).advance 16) 1 = 20) ∧
    ReadMempoolFromPath smallLimit (oneFile (sampleBytes.take (8 + 3))) lenPrefixed "mempool.dat" true
        = .ret Mempool.zero (some (.wrapError .header .ErrUnexpectedEOF)) ∧
    ReadMempoolFromPath smallLimit
        (oneFile (sampleBytes.take
          (16 + timestampPos lenPrefixed ((Reader.mk sampleBytes .EOF).advance 16) 1 + 8 + 3)))
        lenPrefixed "mempool.dat" true
      = .ret ⟨⟨1, 2⟩, none, none⟩ (some (.wrapError (.entry ((1 : Nat) : Int)) .ErrUnexpectedEOF)) :=
  ⟨⟨by rfl, by rfl⟩,
    (truncated_field_fails smallLimit lenPrefixed lenPrefixed_selfDelimiting sampleBytes "mempool.dat"
      false _ (by rfl) 3 (by decide) (by decide) true).1.2.2,
    ((truncated_field_fails smallLimit lenPrefixed lenPrefixed_selfDelimiting sampleBytes "mempool.dat"
      false _ (by rfl) 3 (by decide) (by decide) true).2 1 (by decide)).2.2⟩


/-- The drain loop written over the remaining bytes is the loop over
`ReadByte`: it ends when `ReadByte` returns an error, normally for `io.EOF`,
and otherwise appends the byte read and goes on with the new reader state. -/
theorem readRemaining_step (r : Reader) (feeDelta : Slice Byte) :
    readRemaining r.err r.rest feeDelta =
      (match ReadByte r with
        | (_, some err, _) => if err = .EOF then (feeDelta, none) else (feeDelta, some err)
        | (remainingBytes, none, r1) =>
          readRemaining r1.err r1.rest (goAppend feeDelta remainingBytes)) := by
  rcases r with ⟨rest, e⟩
  cases rest with
  | nil => simp only [readRemaining, ReadByte]
  | cons b bs => simp only [readRemaining, ReadByte]


/-! ## The value read by `readLEint64` -/

theorem toInt64_leUint64_eq_signedLE (b : List Byte) (hb : b.length = 8) :
    toInt64 (leUint64 b) = signedLE b := by
  match b, hb with
  | [x0, x1, x2, x3, x4, x5, x6, x7], _ =>
    have := x0.isLt; have := x1.isLt; have := x2.isLt; have := x3.isLt
    have := x4.isLt; have := x5.isLt; have := x6.isLt; have := x7.isLt
    simp only [toInt64, signedLE, leUint64, List.take, List.foldr, List.range, List.range.loop,
      List.map, List.sum_cons, List.sum_nil, List.getD_cons_zero, List.getD_cons_succ]
    norm_num
    split <;> split <;> omega

theorem leUint64_putLEint64 (v : Int) : leUint64 (putLEint64 v) = toUint64 v := by
  have hlt : toUint64 v < 2 ^ 64 := by
    unfold toUint64
    have h1 : 0 ≤ v % 2 ^ 64 := Int.emod_nonneg _ (by norm_num)
    have h2 : v % 2 ^ 64 < 2 ^ 64 := Int.emod_lt_of_pos _ (by norm_num)
    omega
  unfold putLEint64
  generalize toUint64 v = u at hlt ⊢
  simp only [leUint64, List.range, List.range.loop, List.map, List.take,
    List.foldr, Fin.ofNat, Fin.val_mk]
  norm_num at hlt ⊢
  omega

theorem toInt64_toUint64 (v : Int) (hv : IsInt64 v) : toInt64 (toUint64 v) = v := by
  obtain ⟨h1, h2⟩ := hv
  unfold toInt64 toUint64
  norm_num at h1 h2 ⊢
  split <;> omega

theorem putLEint64_length (v : Int) : (putLEint64 v).length = 8 := by
  simp [putLEint64]

/-- C17: with at least eight bytes left, `readLEint64` returns without error
the signed 64-bit little-endian value of the next eight bytes (the sum of
`byte_i * 256 ^ i`, minus `2 ^ 64` from `2 ^ 63` on) and advances the reader
by exactly eight bytes; hence reading the eight little-endian bytes of an
`int64` value `v` returns `v`. -/
theorem readLEint64_value (r : Reader) (h8 : 8 ≤ r.rest.length) (v : Int) (hv : IsInt64 v)
    (s : List Byte) (e : GoError) :
    readLEint64 r = (signedLE (r.rest.take 8), none, ⟨r.rest.drop 8, r.err⟩) ∧
      IsInt64 (signedLE (r.rest.take 8)) ∧
      readLEint64 ⟨putLEint64 v ++ s, e⟩ = (v, none, ⟨s, e⟩) := by
  have hlen : (r.rest.take 8).length = 8 := by simp only [List.length_take]; omega
  refine ⟨?_, ?_, ?_⟩
  · rw [readLEint64_ok r h8, toInt64_leUint64_eq_signedLE _ hlen]
    rfl
  · rw [← toInt64_leUint64_eq_signedLE _ hlen]
    unfold IsInt64 toInt64
    norm_num
    split <;> omega
  · rw [readLEint64_append _ _ _ (putLEint64_length v), leUint64_putLEint64,
      toInt64_toUint64 v hv]

theorem readLEint64_value_witness :
    (8 ≤ (Reader.mk (List.replicate 8 255 ++ [7]) .EOF).rest.length ∧ IsInt64 (-2)) ∧
    (readLEint64 ⟨List.replicate 8 255 ++ [7], .EOF⟩
        = (signedLE ((Reader.mk (List.replicate 8 255 ++ [7]) .EOF).rest.take 8), none,
            ⟨(Reader.mk (List.replicate 8 255 ++ [7]) .EOF).rest.drop 8, .EOF⟩) ∧
      IsInt64 (signedLE ((Reader.mk (List.replicate 8 255 ++ [7]) .EOF).rest.take 8)) ∧
      readLEint64 ⟨putLEint64 (-2) ++ [9], .EOF⟩ = (-2, none, ⟨[9], .EOF⟩)) :=
  ⟨⟨by decide, by unfold IsInt64; norm_num⟩,
    readLEint64_value ⟨List.replicate 8 255 ++ [7], .EOF⟩ (by decide) (-2)
      (by unfold IsInt64; norm_num) [9] .EOF⟩


/-- C12: on an input of at least 16 bytes `readFileHeader` returns without
error the header whose format version is the signed little-endian value of
bytes 0..7 and whose entry count is that of bytes 8..15, and leaves the reader
at offset 16. -/
theorem readFileHeader_value (r : Reader) (h16 : 16 ≤ r.rest.length) :
    readFileHeader r
      = (⟨signedLE (r.rest.take 8), signedLE ((r.rest.drop 8).take 8)⟩, none,
          ⟨r.rest.drop 16, r.err⟩) := by
  have h1 : (r.rest.take 8).length = 8 := by simp only [List.length_take]; omega
  have h2 : ((r.rest.drop 8).take 8).length = 8 := by
    simp only [List.length_take, List.length_drop]; omega
  have hsplit : r.rest = r.rest.take 8 ++ ((r.rest.drop 8).take 8 ++ r.rest.drop 16) := by
    have hd : r.rest.drop 16 = (r.rest.drop 8).drop 8 := by rw [List.drop_drop]
    rw [hd, List.take_append_drop, List.take_append_drop]
  have hr : r = ⟨r.rest.take 8 ++ ((r.rest.drop 8).take 8 ++ r.rest.drop 16), r.err⟩ := by
    rw [← hsplit]
  rw [← toInt64_leUint64_eq_signedLE _ h1, ← toInt64_leUint64_eq_signedLE _ h2]
  conv_lhs => rw [hr]
  exact readFileHeader_append _ _ _ _ h1 h2

theorem readFileHeader_value_witness :
    16 ≤ (Reader.mk sampleBytes .EOF).rest.length ∧
    readFileHeader ⟨sampleBytes, .EOF⟩
      = (⟨signedLE ((Reader.mk sampleBytes .EOF).rest.take 8),
            signedLE (((Reader.mk sampleBytes .EOF).rest.drop 8).take 8)⟩, none,
          ⟨(Reader.mk sampleBytes .EOF).rest.drop 16, .EOF⟩) ∧
    signedLE (sampleBytes.take 8) = 1 ∧ signedLE ((sampleBytes.drop 8).take 8) = 2 :=
  ⟨by decide, readFileHeader_value ⟨sampleBytes, .EOF⟩ (by decide), by decide, by decide⟩

/-- C13: when the transaction decoder succeeds on a reader, consuming `k`
bytes, and at least 16 bytes follow, `readMempoolEntry` returns without error
the entry made of that transaction, the signed little-endian value of bytes
`k..k+7` as timestamp and that of bytes `k+8..k+15` as fee delta, and advances
the reader by exactly `k + 16` bytes. -/
theorem readMempoolEntry_value {Tx : Type} (D : TxDecoder Tx) (r : Reader) (tx : Tx) (k : Nat)
    (hd : D r = (none, tx, k)) (hlen : k + 16 ≤ r.rest.length) :
    readMempoolEntry D r
      = (⟨some tx, signedLE ((r.rest.drop k).take 8), signedLE ((r.rest.drop (k + 8)).take 8)⟩,
          none, ⟨r.rest.drop (k + 16), r.err⟩) := by
  have h1 : ((r.rest.drop k).take 8).length = 8 := by
    simp only [List.length_take, List.length_drop]; omega
  have h2 : ((r.rest.drop (k + 8)).take 8).length = 8 := by
    simp only [List.length_take, List.length_drop]; omega
  have ht : (r.rest.take k).length = k := by simp only [List.length_take]; omega
  have hsplit : r.rest = r.rest.take k
      ++ ((r.rest.drop k).take 8 ++ ((r.rest.drop (k + 8)).take 8 ++ r.rest.drop (k + 16))) := by
    have hd1 : r.rest.drop (k + 16) = (r.rest.drop (k + 8)).drop 8 := by
      rw [List.drop_drop]
    have hd2 : r.rest.drop (k + 8) = (r.rest.drop k).drop 8 := by
      rw [List.drop_drop]
    rw [hd1, List.take_append_drop, hd2, List.take_append_drop, List.take_append_drop]
  have hd2 : D r = (none, tx, (r.rest.take k).length) := by rw [ht]; exact hd
  rw [← toInt64_leUint64_eq_signedLE _ h1, ← toInt64_leUint64_eq_signedLE _ h2]
  exact readMempoolEntry_compose hd2 hsplit h1 h2

theorem readMempoolEntry_value_witness :
    (lenPrefixed ⟨sampleBytes.drop 16, .EOF⟩ = (none, [2, 7, 9], 3) ∧
      3 + 16 ≤ (Reader.mk (sampleBytes.drop 16) .EOF).rest.length) ∧
    readMempoolEntry lenPrefixed ⟨sampleBytes.drop 16, .EOF⟩
      = (⟨some [2, 7, 9], signedLE (((Reader.mk (sampleBytes.drop 16) .EOF).rest.drop 3).take 8),
            signedLE (((Reader.mk (sampleBytes.drop 16) .EOF).rest.drop (3 + 8)).take 8)⟩,
          none, ⟨(Reader.mk (sampleBytes.drop 16) .EOF).rest.drop (3 + 16), .EOF⟩) :=
  ⟨⟨by rfl, by decide⟩,
    readMempoolEntry_value lenPrefixed ⟨sampleBytes.drop 16, .EOF⟩ [2, 7, 9] 3 (by rfl)
      (by decide)⟩

/-- C18: on a regular file with fewer than eight bytes left `readLEint64`
fails: it returns the value 0 and an error, `io.EOF` when no byte is left and
`io.ErrUnexpectedEOF` when one to seven bytes are left, and these two errors
are different; all the bytes left are consumed. -/
theorem readLEint64_short_input (rest : List Byte) (h : rest.length < 8) :
    readLEint64 ⟨rest, .EOF⟩
        = (0, some (if rest.length = 0 then .EOF else .ErrUnexpectedEOF), ⟨[], .EOF⟩) ∧
      GoError.EOF ≠ GoError.ErrUnexpectedEOF := by
  refine ⟨?_, by decide⟩
  rw [readLEint64_short _ (by exact h)]
  by_cases h0 : rest.length = 0
  · have : rest = [] := List.length_eq_zero.mp h0
    subst this
    simp [Reader.advance]
  · have hpos : 0 < rest.length := by omega
    simp [h0, hpos, Reader.advance]

theorem readLEint64_short_input_witness :
    ([1, 2, 3] : List Byte).length < 8 ∧
    (readLEint64 ⟨[1, 2, 3], .EOF⟩
        = (0, some (if ([1, 2, 3] : List Byte).length = 0 then .EOF else .ErrUnexpectedEOF),
            ⟨[], .EOF⟩) ∧
      GoError.EOF ≠ GoError.ErrUnexpectedEOF) :=
  ⟨by decide, readLEint64_short_input [1, 2, 3] (by decide)⟩


/-! ## Header failures and the empty file -/

/-- The header read on fewer than 16 bytes: the error is the one of the
`readLEint64` call that runs short, nothing is added to it, and the header
returned is the zero value. -/
theorem readFileHeader_short (r : Reader) (h : r.rest.length < 16) :
    readFileHeader r
      = (FileHeader.zero,
          some (if 0 < r.rest.length % 8 ∧ r.err = .EOF then .ErrUnexpectedEOF else r.err),
          ⟨[], r.err⟩) := by
  by_cases h8 : r.rest.length < 8
  · have hmod : r.rest.length % 8 = r.rest.length := Nat.mod_eq_of_lt h8
    simp only [readFileHeader, readLEint64_short r h8, hmod, Reader.advance, List.drop_length]
  · have h1 : (r.rest.take 8).length = 8 := by simp only [List.length_take]; omega
    have hr : r = ⟨r.rest.take 8 ++ r.rest.drop 8, r.err⟩ := by rw [List.take_append_drop]
    have hl : (r.rest.drop 8).length < 8 := by simp only [List.length_drop]; omega
    have hmod : r.rest.length % 8 = (r.rest.drop 8).length := by
      simp only [List.length_drop]; omega
    have hs := readLEint64_short ⟨r.rest.drop 8, r.err⟩ hl
    simp only [Reader.advance, List.drop_length] at hs
    rw [hmod]
    conv_lhs => rw [hr]
    simp only [readFileHeader, readLEint64_append _ _ _ h1, hs]

/-- C14: a 16-byte file whose header holds any format version and the entry
count 0 decodes successfully for either value of the flag, with an empty
entries slice, and `Deserialize` is never called. -/
theorem zero_count_succeeds {Tx : Type} (maxLen : Nat) (D : TxDecoder Tx) (b : List Byte) (hb : b.length = 8)
    (path : String) (readDeltas : Bool) :
    ReadMempoolFromPath maxLen (oneFile (b ++ le8 0)) D path readDeltas
        = .ret ⟨⟨signedLE b, 0⟩, some [], none⟩ none ∧
      (decodeReader maxLen D ⟨b ++ le8 0, .EOF⟩ readDeltas).txCalls = 0 := by
  have hh : readFileHeader ⟨b ++ (le8 0 ++ []), .EOF⟩ = (⟨signedLE b, 0⟩, none, ⟨[], .EOF⟩) := by
    rw [readFileHeader_append b (le8 0) [] .EOF hb rfl, toInt64_leUint64_eq_signedLE b hb]
    rfl
  rw [List.append_nil] at hh
  have hloop : readEntries D (0 : Int).toNat 0 ⟨[], .EOF⟩
      (List.replicate (0 : Int).toNat MempoolEntry.zero) 0 = (none, [], ⟨[], .EOF⟩, 0) := rfl
  obtain ⟨hf, ht⟩ := decodeReader_of_entries hh (le_refl _)
    (show (0 : Int) ≤ (maxLen : Int) from Int.natCast_nonneg maxLen) hloop
  have hrun : decodeReader maxLen D ⟨b ++ le8 0, .EOF⟩ readDeltas
      = ⟨.ret ⟨⟨signedLE b, 0⟩, some [], none⟩ none, ⟨[], .EOF⟩, 0⟩ := by
    cases readDeltas with
    | false => exact hf
    | true => rw [ht]; rfl
  refine ⟨?_, by rw [hrun]⟩
  show (decodeReader maxLen D ⟨b ++ le8 0, .EOF⟩ readDeltas).outcome = _
  rw [hrun]

theorem zero_count_succeeds_witness :
    (List.replicate 8 255 : List Byte).length = 8 ∧
    (ReadMempoolFromPath smallLimit (oneFile (List.replicate 8 255 ++ le8 0)) lenPrefixed "mempool.dat" true
        = .ret ⟨⟨signedLE (List.replicate 8 255), 0⟩, some [], none⟩ none ∧
      (decodeReader smallLimit lenPrefixed ⟨List.replicate 8 255 ++ le8 0, .EOF⟩ true).txCalls = 0) :=
  ⟨by decide, zero_count_succeeds smallLimit lenPrefixed (List.replicate 8 255) (by decide)
    "mempool.dat" true⟩

/-- C15: on a regular file shorter than 16 bytes the call fails with the
header error wrapping the error of the read that ran short (`io.EOF` when it
found no byte, `io.ErrUnexpectedEOF` otherwise), and `Deserialize` is never
called. -/
theorem short_input_header_error {Tx : Type} (maxLen : Nat) (D : TxDecoder Tx) (data : List Byte)
    (hlen : data.length < 16) (path : String) (readDeltas : Bool) :
    (readFileHeader ⟨data, .EOF⟩).2.1
        = some (if data.length = 0 ∨ data.length = 8 then .EOF else .ErrUnexpectedEOF) ∧
      ReadMempoolFromPath maxLen (oneFile data) D path readDeltas
        = .ret Mempool.zero (some (.wrapError .header
            (if data.length = 0 ∨ data.length = 8 then .EOF else .ErrUnexpectedEOF))) ∧
      GoError.Unwrap (.wrapError .header
            (if data.length = 0 ∨ data.length = 8 then .EOF else .ErrUnexpectedEOF))
        = some (if data.length = 0 ∨ data.length = 8 then .EOF else .ErrUnexpectedEOF) ∧
      (decodeReader maxLen D ⟨data, .EOF⟩ readDeltas).txCalls = 0 := by
  have hh : readFileHeader ⟨data, .EOF⟩
      = (FileHeader.zero,
          some (if data.length = 0 ∨ data.length = 8 then .EOF else .ErrUnexpectedEOF),
          ⟨[], .EOF⟩) := by
    rw [readFileHeader_short ⟨data, .EOF⟩ hlen]
    by_cases h0 : data.length = 0 ∨ data.length = 8
    · have h1 : ¬ 0 < data.length % 8 := by omega
      simp only [h0, h1, false_and, if_true, if_false]
    · have h1 : 0 < data.length % 8 := by omega
      simp only [h0, h1, true_and, if_true, if_false]
  have hrun : decodeReader maxLen D ⟨data, .EOF⟩ readDeltas
      = ⟨.ret Mempool.zero (some (.wrapError .header
          (if data.length = 0 ∨ data.length = 8 then .EOF else .ErrUnexpectedEOF))),
          ⟨[], .EOF⟩, 0⟩ := decodeReader_header_error D readDeltas hh
  refine ⟨by rw [hh], ?_, rfl, by rw [hrun]⟩
  show (decodeReader maxLen D ⟨data, .EOF⟩ readDeltas).outcome = _
  rw [hrun]

theorem short_input_header_error_witness :
    (sampleBytes.take 11).length < 16 ∧
    ((readFileHeader ⟨sampleBytes.take 11, .EOF⟩).2.1
        = some (if (sampleBytes.take 11).length = 0 ∨ (sampleBytes.take 11).length = 8
            then .EOF else .ErrUnexpectedEOF) ∧
      ReadMempoolFromPath smallLimit (oneFile (sampleBytes.take 11)) lenPrefixed "mempool.dat" false
        = .ret Mempool.zero (some (.wrapError .header
            (if (sampleBytes.take 11).length = 0 ∨ (sampleBytes.take 11).length = 8
              then .EOF else .ErrUnexpectedEOF))) ∧
      GoError.Unwrap (.wrapError .header
            (if (sampleBytes.take 11).length = 0 ∨ (sampleBytes.take 11).length = 8
              then .EOF else .ErrUnexpectedEOF))
        = some (if (sampleBytes.take 11).length = 0 ∨ (sampleBytes.take 11).length = 8
            then .EOF else .ErrUnexpectedEOF) ∧
      (decodeReader smallLimit lenPrefixed ⟨sampleBytes.take 11, .EOF⟩ false).txCalls = 0) :=
  ⟨by decide, short_input_header_error smallLimit lenPrefixed (sampleBytes.take 11) (by decide)
    "mempool.dat" false⟩

/-- C16 (as stated, refuted): a failure in the format version (3-byte input)
and a failure in the entry count (the same 3 bytes after 8 version bytes) give
the same result of `readFileHeader`, the bare `io.ErrUnexpectedEOF`, and the
same result of `ReadMempoolFromPath`: nothing tells which field failed. -/
theorem header_errors_same_for_both_fields :
    readFileHeader ⟨[1, 2, 3], .EOF⟩ = (FileHeader.zero, some .ErrUnexpectedEOF, ⟨[], .EOF⟩) ∧
      readFileHeader ⟨le8 1 ++ [1, 2, 3], .EOF⟩
        = (FileHeader.zero, some .ErrUnexpectedEOF, ⟨[], .EOF⟩) ∧
      ReadMempoolFromPath smallLimit (oneFile [1, 2, 3]) lenPrefixed "mempool.dat" false
        = ReadMempoolFromPath smallLimit (oneFile (le8 1 ++ [1, 2, 3])) lenPrefixed "mempool.dat" false :=
  ⟨by rfl, by rfl, by rfl⟩

/-- C16 (amended): when `readFileHeader` fails it returns the zero header and
the error of the failing `readLEint64` call unchanged, with nothing added: a
failure in the format version (fewer than 8 bytes) and a failure in the entry
count (the same bytes after 8 version bytes) give the same error, and
`ReadMempoolFromPath` wraps both as the same header error. -/
theorem header_error_without_field {Tx : Type} (maxLen : Nat) (D : TxDecoder Tx) (b data : List Byte)
    (err : GoError) (hb : b.length = 8) (hd : data.length < 8) (readDeltas : Bool) :
    ∃ cause, (readLEint64 ⟨data, err⟩).2.1 = some cause ∧
      readFileHeader ⟨data, err⟩ = (FileHeader.zero, some cause, ⟨[], err⟩) ∧
      readFileHeader ⟨b ++ data, err⟩ = (FileHeader.zero, some cause, ⟨[], err⟩) ∧
      (decodeReader maxLen D ⟨data, err⟩ readDeltas).outcome
        = .ret Mempool.zero (some (.wrapError .header cause)) ∧
      (decodeReader maxLen D ⟨b ++ data, err⟩ readDeltas).outcome
        = .ret Mempool.zero (some (.wrapError .header cause)) ∧
      GoError.Unwrap (.wrapError .header cause) = some cause := by
  have h1 := readFileHeader_short ⟨data, err⟩ (by show data.length < 16; omega)
  have h2 := readFileHeader_short ⟨b ++ data, err⟩
    (by show (b ++ data).length < 16; simp only [List.length_append]; omega)
  have hm1 : data.length % 8 = data.length := Nat.mod_eq_of_lt hd
  have hm2 : (b ++ data).length % 8 = data.length := by
    simp only [List.length_append]; omega
  simp only [hm1] at h1
  simp only [hm2] at h2
  refine ⟨_, ?_, h1, h2, ?_, ?_, rfl⟩
  · rw [readLEint64_short _ (by exact hd)]
  · rw [decodeReader_header_error D readDeltas h1]
  · rw [decodeReader_header_error D readDeltas h2]

theorem header_error_without_field_witness :
    ((le8 1).length = 8 ∧ ([1, 2, 3] : List Byte).length < 8) ∧
    ∃ cause, (readLEint64 ⟨[1, 2, 3], .EOF⟩).2.1 = some cause ∧
      readFileHeader ⟨[1, 2, 3], .EOF⟩ = (FileHeader.zero, some cause, ⟨[], .EOF⟩) ∧
      readFileHeader ⟨le8 1 ++ [1, 2, 3], .EOF⟩ = (FileHeader.zero, some cause, ⟨[], .EOF⟩) ∧
      (decodeReader smallLimit lenPrefixed ⟨[1, 2, 3], .EOF⟩ true).outcome
        = .ret Mempool.zero (some (.wrapError .header cause)) ∧
      (decodeReader smallLimit lenPrefixed ⟨le8 1 ++ [1, 2, 3], .EOF⟩ true).outcome
        = .ret Mempool.zero (some (.wrapError .header cause)) ∧
      GoError.Unwrap (.wrapError .header cause) = some cause :=
  ⟨⟨by decide, by decide⟩,
    header_error_without_field smallLimit lenPrefixed (le8 1) [1, 2, 3] .EOF (by decide) (by decide) true⟩


/-! ## The format version and the flag -/

/-- A successful run on a file reads the format version from the first eight
bytes and does not depend on them otherwise. -/
theorem decodeReader_success_version {Tx : Type} {maxLen : Nat} {D : TxDecoder Tx} {b rest : List Byte}
    {err : GoError} {rd : Bool} {mem : Mempool Tx} (hb : b.length = 8)
    (h : (decodeReader maxLen D ⟨b ++ rest, err⟩ rd).outcome = .ret mem none)
    (b2 : List Byte) (hb2 : b2.length = 8) :
    mem.header.version = toInt64 (leUint64 b) ∧
      (decodeReader maxLen D ⟨b2 ++ rest, err⟩ rd).outcome
        = .ret ⟨⟨toInt64 (leUint64 b2), mem.header.numTx⟩, mem.entries, mem.mapDeltas⟩ none := by
  obtain ⟨r1, es, r2, c, h1, hn, hloop, hes, hfalse, htrue⟩ := decodeReader_success h
  obtain ⟨a1, a2, hl1, hl2, hdata, herr, hhd⟩ := readFileHeader_decomp h1
  simp only at hdata herr
  obtain ⟨hba, hrest⟩ := List.append_inj hdata (by rw [hb, hl1])
  subst hba
  have hr1 : r1 = ⟨r1.rest, err⟩ := by
    rcases r1 with ⟨x, y⟩
    simp only at herr
    rw [herr]
  have hnum : mem.header.numTx = toInt64 (leUint64 a2) := by rw [hhd]
  have hh : readFileHeader ⟨b2 ++ rest, err⟩
      = ((⟨toInt64 (leUint64 b2), mem.header.numTx⟩ : FileHeader), none, r1) := by
    rw [hrest, hnum, hr1]
    exact readFileHeader_append b2 a2 _ err hb2 hl2
  obtain ⟨hf, ht⟩ := decodeReader_of_entries hh hn (decodeReader_entries_max h hes) hloop
  refine ⟨by rw [hhd], ?_⟩
  cases rd with
  | false =>
    obtain ⟨hmd, -⟩ := hfalse rfl
    rw [hf, hes, hmd]
  | true =>
    obtain ⟨hrem, -⟩ := htrue rfl
    rw [ht, hrem, hes]

/-- C11: the format version is not checked and has no influence on the rest:
for two files that differ only in their first eight bytes, one decodes
successfully iff the other does, with the same entry count, entries and
trailing bytes, and the format version returned is the signed little-endian
value of the first eight bytes, so that a file starting with the eight bytes
of any `int64` value `v` has version `v`. -/
theorem version_passthrough {Tx : Type} (maxLen : Nat) (D : TxDecoder Tx) (b b2 rest : List Byte)
    (err : GoError) (readDeltas : Bool) (v : Int) (hb : b.length = 8) (hb2 : b2.length = 8)
    (hv : IsInt64 v) :
    ((∃ mem, (decodeReader maxLen D ⟨b ++ rest, err⟩ readDeltas).outcome = .ret mem none) ↔
      (∃ mem, (decodeReader maxLen D ⟨b2 ++ rest, err⟩ readDeltas).outcome = .ret mem none)) ∧
    (∀ mem, (decodeReader maxLen D ⟨b ++ rest, err⟩ readDeltas).outcome = .ret mem none →
      mem.header.version = signedLE b ∧
      (decodeReader maxLen D ⟨b2 ++ rest, err⟩ readDeltas).outcome
        = .ret ⟨⟨signedLE b2, mem.header.numTx⟩, mem.entries, mem.mapDeltas⟩ none) ∧
    (∀ mem, (decodeReader maxLen D ⟨putLEint64 v ++ rest, err⟩ readDeltas).outcome = .ret mem none →
      mem.header.version = v) := by
  refine ⟨⟨?_, ?_⟩, ?_, ?_⟩
  · rintro ⟨mem, h⟩
    exact ⟨_, (decodeReader_success_version hb h b2 hb2).2⟩
  · rintro ⟨mem, h⟩
    exact ⟨_, (decodeReader_success_version hb2 h b hb).2⟩
  · intro mem h
    obtain ⟨h1, h2⟩ := decodeReader_success_version hb h b2 hb2
    rw [toInt64_leUint64_eq_signedLE b hb] at h1
    rw [toInt64_leUint64_eq_signedLE b2 hb2] at h2
    exact ⟨h1, h2⟩
  · intro mem h
    obtain ⟨h1, -⟩ := decodeReader_success_version (putLEint64_length v) h b hb
    rw [h1, leUint64_putLEint64, toInt64_toUint64 v hv]

theorem version_passthrough_witness :
    ((le8 1).length = 8 ∧ (List.replicate 8 255 : List Byte).length = 8 ∧ IsInt64 (-7)) ∧
    (((∃ mem, (decodeReader smallLimit lenPrefixed ⟨le8 1 ++ sampleBytes.drop 8, .EOF⟩ true).outcome
          = .ret mem none) ↔
      (∃ mem, (decodeReader smallLimit lenPrefixed
          ⟨List.replicate 8 255 ++ sampleBytes.drop 8, .EOF⟩ true).outcome = .ret mem none)) ∧
    (∀ mem, (decodeReader smallLimit lenPrefixed ⟨le8 1 ++ sampleBytes.drop 8, .EOF⟩ true).outcome
        = .ret mem none →
      mem.header.version = signedLE (le8 1) ∧
      (decodeReader smallLimit lenPrefixed ⟨List.replicate 8 255 ++ sampleBytes.drop 8, .EOF⟩ true).outcome
        = .ret ⟨⟨signedLE (List.replicate 8 255), mem.header.numTx⟩, mem.entries,
            mem.mapDeltas⟩ none) ∧
    (∀ mem, (decodeReader smallLimit lenPrefixed ⟨putLEint64 (-7) ++ sampleBytes.drop 8, .EOF⟩ true).outcome
        = .ret mem none → mem.header.version = -7)) ∧
    (decodeReader smallLimit lenPrefixed ⟨List.replicate 8 255 ++ sampleBytes.drop 8, .EOF⟩ true).outcome
      = .ret ⟨⟨-1, 2⟩, some [⟨some [2, 7, 9], 5, 6⟩, ⟨some [0], 3, -1⟩], some [42, 43]⟩ none :=
  ⟨⟨by decide, by decide, by unfold IsInt64; norm_num⟩,
    version_passthrough smallLimit lenPrefixed (le8 1) (List.replicate 8 255) (sampleBytes.drop 8) .EOF
      true (-7) (by decide) (by decide) (by unfold IsInt64; norm_num), by rfl⟩

/-- The possible runs on a regular file, for both values of the flag. -/
theorem decodeReader_cases {Tx : Type} (maxLen : Nat) (D : TxDecoder Tx) (data : List Byte) :
    (∃ e r1, ∀ rd, decodeReader maxLen D ⟨data, .EOF⟩ rd
        = ⟨.ret Mempool.zero (some (.wrapError .header e)), r1, 0⟩) ∨
    (∃ r1, ∀ rd, decodeReader maxLen D ⟨data, .EOF⟩ rd = ⟨.runtimePanic, r1, 0⟩) ∨
    (∃ hd e r2 c, ∀ rd, decodeReader maxLen D ⟨data, .EOF⟩ rd
        = ⟨.ret ⟨hd, none, none⟩ (some e), r2, c⟩) ∨
    (∃ hd es r2 c md,
      decodeReader maxLen D ⟨data, .EOF⟩ false = ⟨.ret ⟨hd, some es, none⟩ none, r2, c⟩ ∧
      decodeReader maxLen D ⟨data, .EOF⟩ true = ⟨.ret ⟨hd, some es, md⟩ none, ⟨[], .EOF⟩, c⟩) := by
  rcases h1 : readFileHeader ⟨data, .EOF⟩ with ⟨hd, e1, r1⟩
  cases e1 with
  | some e1 => exact Or.inl ⟨e1, r1, fun rd => decodeReader_header_error D rd h1⟩
  | none =>
    by_cases hneg : hd.numTx < 0
    · exact Or.inr (Or.inl ⟨r1, fun rd => decodeReader_negative_count D rd h1 hneg⟩)
    by_cases hbig : (maxLen : Int) < hd.numTx
    · exact Or.inr (Or.inl ⟨r1, fun rd => decodeReader_count_too_large D rd h1 hbig⟩)
    · have hn : 0 ≤ hd.numTx := not_lt.mp hneg
      have hmax : hd.numTx ≤ maxLen := not_lt.mp hbig
      rcases h2 : readEntries D hd.numTx.toNat 0 r1
          (List.replicate hd.numTx.toNat MempoolEntry.zero) 0 with ⟨e2, es, r2, c⟩
      cases e2 with
      | some e2 =>
        exact Or.inr (Or.inr (Or.inl ⟨hd, e2, r2, c,
          fun rd => decodeReader_entry_error rd h1 hn hmax h2⟩))
      | none =>
        obtain ⟨hf, ht⟩ := decodeReader_of_entries h1 hn hmax h2
        obtain ⟨-, -, -, -, -, herr1, -⟩ := readFileHeader_decomp h1
        obtain ⟨hstart, -, -⟩ := readEntries_spec D _ 0 r1 _ es 0 c r2 h2
          (by simp only [List.length_replicate]; omega)
        have herr : r2.err = .EOF := by
          rw [hstart, entryStart_err, herr1]
        rw [readRemaining_eq, herr] at ht
        simp only [if_true] at ht
        exact Or.inr (Or.inr (Or.inr ⟨hd, es, r2, c, _, hf, ht⟩))

/-- C19: on a regular file the flag changes nothing but the trailing field:
the call with the flag succeeds iff the call without it does, with the same
header and entries (and the same number of `Deserialize` calls); when one
fails the other fails with the same error and the same `Mempool`; when one
ends in a panic so does the other. -/
theorem flag_affects_only_trailing {Tx : Type} (maxLen : Nat) (D : TxDecoder Tx) (data : List Byte)
    (path : String) :
    (∀ mem, ReadMempoolFromPath maxLen (oneFile data) D path false = .ret mem none →
      ∃ md, ReadMempoolFromPath maxLen (oneFile data) D path true
        = .ret ⟨mem.header, mem.entries, md⟩ none) ∧
    (∀ mem, ReadMempoolFromPath maxLen (oneFile data) D path true = .ret mem none →
      ReadMempoolFromPath maxLen (oneFile data) D path false
        = .ret ⟨mem.header, mem.entries, none⟩ none) ∧
    (∀ mem e, ReadMempoolFromPath maxLen (oneFile data) D path false = .ret mem (some e) ↔
      ReadMempoolFromPath maxLen (oneFile data) D path true = .ret mem (some e)) ∧
    (ReadMempoolFromPath maxLen (oneFile data) D path false = .runtimePanic ↔
      ReadMempoolFromPath maxLen (oneFile data) D path true = .runtimePanic) ∧
    (decodeReader maxLen D ⟨data, .EOF⟩ false).txCalls = (decodeReader maxLen D ⟨data, .EOF⟩ true).txCalls := by
  have hR : ∀ rd, ReadMempoolFromPath maxLen (oneFile data) D path rd
      = (decodeReader maxLen D ⟨data, .EOF⟩ rd).outcome := fun _ => rfl
  simp only [hR]
  rcases decodeReader_cases maxLen D data with ⟨e, r1, h⟩ | ⟨r1, h⟩ | ⟨hd, e, r2, c, h⟩ |
    ⟨hd, es, r2, c, md, hf, ht⟩
  · simp [h]
  · simp [h]
  · simp [h]
  · simp only [hf, ht]
    refine ⟨?_, ?_, ?_, ?_, trivial⟩
    · intro mem hm
      simp only [Outcome.ret.injEq, and_true] at hm
      subst hm
      exact ⟨md, rfl⟩
    · intro mem hm
      simp only [Outcome.ret.injEq, and_true] at hm
      subst hm
      rfl
    · intro mem e
      simp
    · simp


theorem flag_affects_only_trailing_witness :
    ReadMempoolFromPath smallLimit (oneFile sampleBytes) lenPrefixed "mempool.dat" false
        = .ret ⟨⟨1, 2⟩, some [⟨some [2, 7, 9], 5, 6⟩, ⟨some [0], 3, -1⟩], none⟩ none ∧
      ∃ md, ReadMempoolFromPath smallLimit (oneFile sampleBytes) lenPrefixed "mempool.dat" true
        = .ret ⟨(Mempool.mk ⟨1, 2⟩ (some [⟨some [2, 7, 9], 5, 6⟩, ⟨some [0], 3, -1⟩]) none
              : Mempool (List Byte)).header,
            (Mempool.mk ⟨1, 2⟩ (some [⟨some [2, 7, 9], 5, 6⟩, ⟨some [0], 3, -1⟩]) none
              : Mempool (List Byte)).entries, md⟩ none :=
  ⟨by rfl, (flag_affects_only_trailing smallLimit lenPrefixed sampleBytes "mempool.dat").1 _ (by rfl)⟩

/-! ## What is returned with an entry error -/

/-- The index reported by a failing loop is the index of an iteration. -/
theorem readEntries_error_index {Tx : Type} (D : TxDecoder Tx) (k : Nat) :
    ∀ (i0 : Int) (r : Reader) (es : List (MempoolEntry Tx)) (c : Nat) (j : Int)
      (cause : GoError),
      (readEntries D k i0 r es c).1 = some (.wrapError (.entry j) cause) →
        i0 ≤ j ∧ j < i0 + k := by
  induction k with
  | zero => intro i0 r es c j cause h; simp [readEntries] at h
  | succ k ih =>
    intro i0 r es c j cause h
    rw [readEntries_succ] at h
    rcases h1 : readMempoolEntry D r with ⟨m, e1, r1⟩
    rw [h1] at h
    cases e1 with
    | some e1 =>
      simp only [Option.some.injEq, GoError.wrapError.injEq, ErrSite.entry.injEq] at h
      obtain ⟨hj, -⟩ := h
      subst hj
      push_cast
      omega
    | none =>
      obtain ⟨ha, hb⟩ := ih _ _ _ _ _ _ h
      push_cast
      omega

/-- C20: when the call returns the entry error for index `i`, the header was
decoded with a non-negative entry count above `i`, and the `Mempool` returned
with the error holds that header while its entries and trailing bytes are
unset: the entries decoded at the indices below `i` are not attached. -/
theorem entry_failure_keeps_header {Tx : Type} (maxLen : Nat) (osOpen : String → Except GoError File)
    (D : TxDecoder Tx) (path : String) (readDeltas : Bool) (file : File) (mem : Mempool Tx)
    (i : Int) (cause : GoError) (hopen : osOpen path = .ok file)
    (h : ReadMempoolFromPath maxLen osOpen D path readDeltas
      = .ret mem (some (.wrapError (.entry i) cause))) :
    (∃ r1, readFileHeader (NewReader file) = (mem.header, none, r1)) ∧
      0 ≤ i ∧ i < mem.header.numTx ∧
      mem.entries = none ∧ mem.mapDeltas = none := by
  unfold ReadMempoolFromPath at h
  rw [hopen] at h
  simp only at h
  rcases h1 : readFileHeader (NewReader file) with ⟨hd, e1, r1⟩
  cases e1 with
  | some e1 =>
    rw [decodeReader_header_error D readDeltas h1] at h
    simp at h
  | none =>
    by_cases hneg : hd.numTx < 0
    · rw [decodeReader_negative_count D readDeltas h1 hneg] at h
      simp at h
    by_cases hbig : (maxLen : Int) < hd.numTx
    · rw [decodeReader_count_too_large D readDeltas h1 hbig] at h
      simp at h
    · have hn : 0 ≤ hd.numTx := not_lt.mp hneg
      have hmax : hd.numTx ≤ maxLen := not_lt.mp hbig
      rcases h2 : readEntries D hd.numTx.toNat 0 r1
          (List.replicate hd.numTx.toNat MempoolEntry.zero) 0 with ⟨e2, es, r2, c⟩
      cases e2 with
      | some e2 =>
        rw [decodeReader_entry_error readDeltas h1 hn hmax h2] at h
        simp only [Outcome.ret.injEq, Option.some.injEq] at h
        obtain ⟨hm, he⟩ := h
        subst hm
        subst he
        obtain ⟨ha, hb⟩ := readEntries_error_index D _ _ _ _ _ i cause
          (show (readEntries D hd.numTx.toNat 0 r1
            (List.replicate hd.numTx.toNat MempoolEntry.zero) 0).1 = _ by rw [h2])
        refine ⟨⟨r1, rfl⟩, ha, ?_, rfl, rfl⟩
        show i < hd.numTx
        omega
      | none =>
        obtain ⟨hf, ht⟩ := decodeReader_of_entries h1 hn hmax h2
        cases readDeltas with
        | false => rw [hf] at h; simp at h
        | true =>
          rw [ht] at h
          rcases h3 : readRemaining r2.err r2.rest none with ⟨fd, e3⟩
          rw [h3] at h
          cases e3 with
          | none => simp at h
          | some e3 => simp at h

theorem entry_failure_keeps_header_witness :
    (oneFile (sampleBytes.take 37) "mempool.dat" = .ok ⟨sampleBytes.take 37, .EOF⟩ ∧
      ReadMempoolFromPath smallLimit (oneFile (sampleBytes.take 37)) lenPrefixed "mempool.dat" true
        = .ret ⟨⟨1, 2⟩, none, none⟩ (some (.wrapError (.entry 1) .ErrUnexpectedEOF))) ∧
    ((∃ r1, readFileHeader (NewReader ⟨sampleBytes.take 37, .EOF⟩)
        = ((Mempool.mk ⟨1, 2⟩ none none : Mempool (List Byte)).header, none, r1)) ∧
      (0 : Int) ≤ 1 ∧ 1 < (Mempool.mk ⟨1, 2⟩ none none : Mempool (List Byte)).header.numTx ∧
      (Mempool.mk ⟨1, 2⟩ none none : Mempool (List Byte)).entries = none ∧
      (Mempool.mk ⟨1, 2⟩ none none : Mempool (List Byte)).mapDeltas = none) :=
  ⟨⟨rfl, by rfl⟩, entry_failure_keeps_header smallLimit (oneFile (sampleBytes.take 37)) lenPrefixed
    "mempool.dat" true ⟨sampleBytes.take 37, .EOF⟩ _ 1 .ErrUnexpectedEOF rfl (by rfl)⟩


/-! ## An entry count above the allocation limit -/

/-- At the end of a regular file no entry can be read, whatever the
transaction decoder does. -/
theorem readMempoolEntry_at_end {Tx : Type} (D : TxDecoder Tx) :
    (readMempoolEntry D ⟨[], .EOF⟩).2.1 ≠ none := by
  unfold readMempoolEntry
  rcases hd : D ⟨[], .EOF⟩ with ⟨e0, tx, n⟩
  cases e0 with
  | some e => simp
  | none =>
    have hs := readLEint64_short ((Reader.mk [] .EOF).advance n)
      (by simp [Reader.advance])
    simp only [hs]
    simp

/-- On a file system that holds a regular file, the call is the run of the
body on a reader over that file. -/
theorem readMempoolFromPath_oneFile {Tx : Type} (maxLen : Nat) (D : TxDecoder Tx)
    (data : List Byte) (path : String) (rd : Bool) :
    ReadMempoolFromPath maxLen (oneFile data) D path rd
      = (decodeReader maxLen D ⟨data, .EOF⟩ rd).outcome := rfl

/-- The header of the 16-byte file with version 1 and entry count `2 ^ 63 - 1`. -/
theorem large_count_header :
    readFileHeader ⟨le8 1 ++ (List.replicate 7 255 ++ [127]), .EOF⟩
      = ((⟨1, 9223372036854775807⟩ : FileHeader), none, ⟨[], .EOF⟩) := by rfl

theorem large_count_above_limit (maxLen : Nat) (hlim : maxLen < 2 ^ 63 - 1) :
    (maxLen : Int) < (⟨1, 9223372036854775807⟩ : FileHeader).numTx := by
  show (maxLen : Int) < 9223372036854775807
  omega

/-- C5 (the code departs from the claim): the 16-byte file with version 1 and
entry count `2 ^ 63 - 1` announces `N ≥ 0` entries and ends where entry 0
should start, so that entry 0 cannot be decoded, whatever the transaction
decoder does; the call does not return the entry error for index 0: with any
allocation limit below `2 ^ 63 - 1` it ends in the run-time failure of `make`,
for both values of the flag and before any `Deserialize` call. -/
theorem large_count_runtime_panic {Tx : Type} (maxLen : Nat) (D : TxDecoder Tx)
    (readDeltas : Bool) (hlim : maxLen < 2 ^ 63 - 1) :
    readFileHeader ⟨le8 1 ++ (List.replicate 7 255 ++ [127]), .EOF⟩
        = (⟨1, 9223372036854775807⟩, none, ⟨[], .EOF⟩) ∧
      (readMempoolEntry D ⟨[], .EOF⟩).2.1 ≠ none ∧
      ReadMempoolFromPath maxLen (oneFile (le8 1 ++ (List.replicate 7 255 ++ [127]))) D
          "mempool.dat" readDeltas = .runtimePanic ∧
      decodeReader maxLen D ⟨le8 1 ++ (List.replicate 7 255 ++ [127]), .EOF⟩ readDeltas
        = ⟨.runtimePanic, ⟨[], .EOF⟩, 0⟩ := by
  have hrun : decodeReader maxLen D ⟨le8 1 ++ (List.replicate 7 255 ++ [127]), .EOF⟩ readDeltas
      = ⟨.runtimePanic, ⟨[], .EOF⟩, 0⟩ :=
    decodeReader_count_too_large D readDeltas large_count_header
      (large_count_above_limit maxLen hlim)
  exact ⟨large_count_header, readMempoolEntry_at_end D,
    (readMempoolFromPath_oneFile maxLen D _ "mempool.dat" readDeltas).trans
      (congrArg Run.outcome hrun), hrun⟩

theorem large_count_runtime_panic_witness :
    2 ^ 48 / 24 < 2 ^ 63 - 1 ∧
    (readFileHeader ⟨le8 1 ++ (List.replicate 7 255 ++ [127]), .EOF⟩
        = (⟨1, 9223372036854775807⟩, none, ⟨[], .EOF⟩) ∧
      (readMempoolEntry lenPrefixed ⟨[], .EOF⟩).2.1 ≠ none ∧
      ReadMempoolFromPath (2 ^ 48 / 24) (oneFile (le8 1 ++ (List.replicate 7 255 ++ [127])))
          lenPrefixed "mempool.dat" false = .runtimePanic ∧
      decodeReader (2 ^ 48 / 24) lenPrefixed ⟨le8 1 ++ (List.replicate 7 255 ++ [127]), .EOF⟩
          false = ⟨.runtimePanic, ⟨[], .EOF⟩, 0⟩) :=
  ⟨by decide, large_count_runtime_panic (2 ^ 48 / 24) lenPrefixed false (by decide)⟩

end MempoolDat
